import Mathlib

/-!
Verification development for the thread-monitor program (src/thread_monitor.py).

The Python program tracks posts of an online community in a SQLite table
named threads, moves each row through the lifecycle ACTIVE, REMOVED,
ANALYZED, extracts ticker candidates from removed posts with a regular
expression, validates them against an allow list, and aggregates weighted
scores over a rolling time window.  A scheduling loop drives the jobs.

This file gives a shallow embedding of that program:

* the threads table becomes a list of Thread records (the primary key
  constraint of SQLite is carried as a hypothesis that post ids are Nodup);
* SQL UPDATE statements keyed on post_id become pointwise maps over the
  list; SELECT statements become filters;
* timestamps (REAL columns, time.time()) are modelled as integers: every
  comparison the program performs on them is an order comparison, so the
  choice of an ordered numeric carrier does not change any branch;
* the regular expression scan of re.findall over the fixed pattern
  (?:\bAZ2to5\b|DollarAlpha2to5\b) is implemented character by character
  with the exact boundary and greediness behaviour of that pattern,
  see findallTicker below;
* persisted extracted_tickers values are classified by how json.loads and
  the following for loop treat them: a decodable array of strings, an
  undecodable value (json.loads raises and the record is skipped), or a
  decodable non iterable scalar (iteration raises an uncaught TypeError);
* Python set values are represented by lists whose iteration order is not
  observable in any claim; claims compare them as sets.
-/

/-- Lifecycle status column of the threads table (TEXT, default ACTIVE). -/
inductive Status
  | ACTIVE
  | REMOVED
  | ANALYZED
deriving DecidableEq, Repr

/-- Classification of a persisted extracted_tickers value by how the scorer
treats it: arr holds a JSON array of strings (the only shape the analyzer
writes), invalid stands for a value on which json.loads raises TypeError or
JSONDecodeError (the record is skipped), scalar stands for a value that
decodes to a non iterable JSON scalar such as a number, boolean or null, on
which the for loop of the scorer raises an uncaught TypeError. -/
inductive TickersJson
  | arr : List String → TickersJson
  | invalid : TickersJson
  | scalar : TickersJson
deriving DecidableEq, Repr

/-- One row of the threads table. -/
structure Thread where
  post_id : String
  title : String
  selftext : String
  author_name : String
  created_utc : Int
  removed_utc : Option Int
  initial_score : Int
  num_comments_initial : Int
  link_flair : String
  status : Status
  removal_category : Option String
  extracted_tickers : Option TickersJson
deriving DecidableEq, Repr

/-- A post snapshot as delivered by the content source to the harvester
(fields read from a praw submission).  author is None for a deleted author,
selftext and link_flair_text may be None. -/
structure Snapshot where
  id : String
  title : String
  selftext : Option String
  author : Option String
  created_utc : Int
  score : Int
  num_comments : Int
  link_flair_text : Option String
deriving DecidableEq, Repr

/-- A submission returned by reddit.info in the checker; only the id and the
removed_by_category attribute are consulted. -/
structure SubInfo where
  id : String
  removed_by_category : Option String
deriving DecidableEq, Repr

/-- fullname of a submission: the id with the t3 link prefix. -/
def SubInfo.fullname (s : SubInfo) : String := "t3_" ++ s.id

/-! ## Ticker extraction

The analyzer runs re.findall with the pattern that matches either a word
bounded run of 2 to 5 uppercase letters, or a dollar sign followed by 2 to 5
letters of any case followed by a word boundary.  For this fixed pattern the
scan of re.findall has the following elementary description, implemented
below: at each position, try the bare alternative first, then the dollar
alternative, and after a match resume immediately after it.

The bare alternative matches at a position exactly when the previous
character is absent or not a word character, the maximal run of uppercase
letters starting here has length 2 to 5, and the character after that run is
absent or not a word character (greedy repetition with backtracking cannot
stop earlier, because every shorter stop is followed by an uppercase letter,
which is a word character).  The dollar alternative matches exactly when the
position holds a dollar sign, the maximal run of letters after it has length
2 to 5, and the character after the run is absent or not a word character.
Word characters are taken as ASCII letters, digits and the underscore, the
ASCII fragment of the Python class. -/

/-- ASCII word character: letter, digit or underscore. -/
def isWordChar (c : Char) : Bool := c.isAlphanum || c = '_'

/-- There is a word boundary between the previous character (none at the
start of the string) and a first matched character that is a word
character. -/
def boundaryBefore (prev : Option Char) : Bool :=
  match prev with
  | none => true
  | some c => !isWordChar c

/-- There is a word boundary between a last matched character that is a word
character and the rest of the input. -/
def boundaryAfter (rest : List Char) : Bool :=
  match rest with
  | [] => true
  | c :: _ => !isWordChar c

/-- Try the bare alternative at the current position: a word bounded run of
2 to 5 uppercase letters.  Returns the matched characters and the rest of
the input. -/
def tryBare (prev : Option Char) (l : List Char) : Option (List Char × List Char) :=
  if boundaryBefore prev then
    let run := l.takeWhile Char.isUpper
    let rest := l.drop run.length
    if 2 ≤ run.length && run.length ≤ 5 && boundaryAfter rest then
      some (run, rest)
    else none
  else none

/-- Try the dollar alternative at the current position: a dollar sign, then
2 to 5 letters, then a word boundary. -/
def tryDollar (l : List Char) : Option (List Char × List Char) :=
  match l with
  | '$' :: tl =>
    let run := tl.takeWhile Char.isAlpha
    let rest := tl.drop run.length
    if 2 ≤ run.length && run.length ≤ 5 && boundaryAfter rest then
      some ('$' :: run, rest)
    else none
  | _ => none

/-- The scan of re.findall: walk the input left to right, at each position
try the bare then the dollar alternative, emit a match and resume after it,
otherwise advance one character.  The fuel argument bounds the number of
steps; every step consumes at least one character, so the initial fuel
(the length of the input) is never exhausted. -/
def scanTickers (fuel : Nat) (prev : Option Char) (l : List Char) : List String :=
  match fuel, l with
  | 0, _ => []
  | _, [] => []
  | fuel + 1, c :: rest =>
    match tryBare prev (c :: rest) with
    | some (m, r) => String.mk m :: scanTickers fuel m.getLast? r
    | none =>
      match tryDollar (c :: rest) with
      | some (m, r) => String.mk m :: scanTickers fuel m.getLast? r
      | none => scanTickers fuel (some c) rest

/-- re.findall of the ticker pattern over a string. -/
def findallTicker (s : String) : List String :=
  scanTickers s.length none s.data

/-- Normalisation of one raw candidate: strip leading dollar signs and
uppercase the remainder, as in lstrip followed by upper. -/
def cleanTicker (t : String) : String :=
  String.mk ((t.data.dropWhile (fun c => c = '$')).map Char.toUpper)

/-- The verified ticker set of one post: every raw candidate of the
concatenation of title, a space and selftext is cleaned and kept when it
belongs to the allow list; the Python set is represented by the
deduplicated list. -/
def verifiedTickers (allowed : List String) (title selftext : String) : List String :=
  (((findallTicker (title ++ " " ++ selftext)).map cleanTicker).filter
    (fun x => decide (x ∈ allowed))).dedup

example : findallTicker "BTQ to the moon " = ["BTQ"] := by rfl
example : findallTicker "buy $gme and AAPL now, not ABCDEF" = ["$gme", "AAPL"] := by rfl
example : cleanTicker "$gme" = "GME" := by rfl

/-! ## Harvester

harvest_new_threads iterates over the snapshots delivered by the listing
endpoint and runs INSERT OR IGNORE for each one: a row is appended exactly
when no row with that post_id exists yet (the cursor sees the rows inserted
earlier in the same batch), with status taking its column default ACTIVE and
the removal and ticker columns left NULL.  The function reports the number
of newly inserted rows. -/

/-- The row built from one snapshot, with the author sentinel for a deleted
author and empty strings replacing a missing selftext or link flair. -/
def snapToThread (s : Snapshot) : Thread :=
  { post_id := s.id
    title := s.title
    selftext := s.selftext.getD ""
    author_name := s.author.getD "[Deleted]"
    created_utc := s.created_utc
    removed_utc := none
    initial_score := s.score
    num_comments_initial := s.num_comments
    link_flair := s.link_flair_text.getD ""
    status := Status.ACTIVE
    removal_category := none
    extracted_tickers := none }

/-- One INSERT OR IGNORE step of the harvester. -/
def harvestStep (acc : List Thread × Nat) (s : Snapshot) : List Thread × Nat :=
  if acc.1.any (fun t => t.post_id == s.id) then acc
  else (acc.1 ++ [snapToThread s], acc.2 + 1)

/-- Pillar 1: insert previously unseen snapshots into the store; returns the
updated store and the count of newly inserted rows. -/
def harvest_new_threads (st : List Thread) (snaps : List Snapshot) :
    List Thread × Nat :=
  snaps.foldl harvestStep (st, 0)

/-! ## Removal checker

check_for_deletions selects the post ids of up to 100 ACTIVE rows ordered by
created_utc descending, queries reddit.info with their fullnames, marks the
queried fullnames that were not returned as REMOVED with the generic
category, and additionally marks every returned submission whose
removed_by_category attribute carries one of the three removal markers.
Ties in the descending order and the iteration order of the Python set
difference are not observable in any claim below.  The two reads of
time.time() are passed in as now and now2. -/

/-- Insertion of a thread into a list sorted by created_utc descending. -/
def insertDesc (t : Thread) : List Thread → List Thread
  | [] => [t]
  | u :: us => if u.created_utc ≤ t.created_utc then t :: u :: us
               else u :: insertDesc t us

/-- Sort by created_utc descending (ORDER BY created_utc DESC). -/
def sortDesc : List Thread → List Thread
  | [] => []
  | t :: ts => insertDesc t (sortDesc ts)

/-- The checker selection: up to 100 ACTIVE rows, newest first. -/
def checkSelect (st : List Thread) : List Thread :=
  (sortDesc (st.filter (fun t => decide (t.status = Status.ACTIVE)))).take 100

/-- The fullnames queried by the checker. -/
def checkActiveIds (st : List Thread) : List String :=
  (checkSelect st).map (fun t => "t3_" ++ t.post_id)

/-- Everything after the first underscore, as in split with maxsplit one. -/
def splitBare (s : String) : String :=
  String.mk ((s.data.dropWhile (fun c => c ≠ '_')).drop 1)

/-- The queried fullnames that the source did not return, stripped back to
bare ids; the Python set difference is deduplicated. -/
def checkBareDeleted (st : List Thread) (resp : List SubInfo) : List String :=
  (((checkActiveIds st).filter
      (fun fn => !(resp.any (fun sub => sub.fullname == fn)))).dedup).map splitBare

/-- The batch UPDATE of the checker: rows whose post_id is listed become
REMOVED with the generic category and the current timestamp. -/
def markRemovedBatch (bare : List String) (now : Int) (t : Thread) : Thread :=
  if t.post_id ∈ bare then
    { t with status := Status.REMOVED
             removal_category := some "MOD_OR_USER_REMOVED"
             removed_utc := some now }
  else t

/-- The removal markers recognised on a returned submission. -/
def flaggedCategories : List String := ["moderator", "deleted", "automoderator"]

/-- The per submission UPDATE of the checker loop over returned
submissions. -/
def updSub (now2 : Int) (sub : SubInfo) (t : Thread) : Thread :=
  match sub.removed_by_category with
  | some cat =>
    if cat ∈ flaggedCategories ∧ t.post_id = sub.id then
      { t with status := Status.REMOVED
               removal_category := some cat
               removed_utc := some now2 }
    else t
  | none => t

/-- Pillar 3: mark the selected ACTIVE rows that the source no longer
returns, and the returned ones that carry a removal marker, as REMOVED.
resp is the list returned by reddit.info for the queried fullnames. -/
def check_for_deletions (st : List Thread) (resp : List SubInfo)
    (now now2 : Int) : List Thread :=
  let active_ids := checkActiveIds st
  if active_ids.isEmpty then st
  else
    let bare := checkBareDeleted st resp
    let st1 := st.map (markRemovedBatch bare now)
    resp.foldl (fun cur sub => cur.map (updSub now2 sub)) st1

/-! ## Ticker analyzer

analyze_removed_threads selects post_id, title and selftext of every REMOVED
row, returns immediately when there are none or when the allow list is
empty, and otherwise updates each selected row by post_id: when the verified
ticker set is non empty the row receives the serialized set and status
ANALYZED, otherwise only status ANALYZED.  The count of rows with a non
empty verified set is reported. -/

/-- The per row UPDATE of the analyzer, keyed on the selected post_id; the
row data (title and selftext) comes from the selection, not from the thread
being visited. -/
def analyzeUpdOne (allowed : List String) (row : String × String × String)
    (t : Thread) : Thread :=
  let verified := verifiedTickers allowed row.2.1 row.2.2
  if !verified.isEmpty then
    if t.post_id = row.1 then
      { t with extracted_tickers := some (TickersJson.arr verified)
               status := Status.ANALYZED }
    else t
  else
    if t.post_id = row.1 then { t with status := Status.ANALYZED } else t

/-- Pillar 4: analyze REMOVED rows; returns the updated store and the count
of rows whose verified ticker set was non empty. -/
def analyze_removed_threads (allowed : List String) (st : List Thread) :
    List Thread × Nat :=
  let removed_posts :=
    (st.filter (fun t => decide (t.status = Status.REMOVED))).map
      (fun t => (t.post_id, t.title, t.selftext))
  if removed_posts.isEmpty then (st, 0)
  else if allowed.isEmpty then (st, 0)
  else
    (removed_posts.foldl (fun cur row => cur.map (analyzeUpdOne allowed row)) st,
     (removed_posts.filter
        (fun row => !(verifiedTickers allowed row.2.1 row.2.2).isEmpty)).length)

/-! ## Weighted scorer

calculate_weighted_scores selects extracted_tickers and author_name of every
ANALYZED row with removed_utc at or after the window start and a non NULL
ticker column, accumulates per ticker the total mention count and the set of
distinct authors, and returns the mapping from ticker to the product of the
two.  A row whose persisted value cannot be decoded is skipped; a row whose
value decodes to a non iterable scalar raises an uncaught TypeError, which
the Option result models as none. -/

/-- WHERE clause of the scorer selection. -/
def inWindowRow (start_utc : Int) (t : Thread) : Bool :=
  decide (t.status = Status.ANALYZED) &&
    (match t.removed_utc with
     | some r => decide (start_utc ≤ r)
     | none => false) &&
  t.extracted_tickers.isSome

/-- The selected rows of the scorer: persisted ticker value and author. -/
def scoreRows (st : List Thread) (start_utc : Int) :
    List (TickersJson × String) :=
  (st.filter (inWindowRow start_utc)).filterMap
    (fun t => t.extracted_tickers.map (fun tj => (tj, t.author_name)))

/-- Accumulator of the scorer: the common key list of the two Python dicts
(both are always extended together) and the two lookup functions. -/
structure ScoreState where
  keys : List String
  mentions : String → Nat
  authors : String → List String

/-- Empty accumulator. -/
def initScoreState : ScoreState :=
  { keys := [], mentions := fun _ => 0, authors := fun _ => [] }

/-- Processing of one ticker occurrence of one row: bump the mention count
and add the author of the row to the author set of the ticker. -/
def procTicker (author : String) (σ : ScoreState) (tk : String) : ScoreState :=
  { keys := if tk ∈ σ.keys then σ.keys else σ.keys ++ [tk]
    mentions := fun x => if x = tk then σ.mentions tk + 1 else σ.mentions x
    authors := fun x =>
      if x = tk then
        (if author ∈ σ.authors tk then σ.authors tk else σ.authors tk ++ [author])
      else σ.authors x }

/-- Processing of the selected rows; none models the uncaught TypeError
raised when a persisted value decodes to a non iterable scalar. -/
def procRows : List (TickersJson × String) → ScoreState → Option ScoreState
  | [], σ => some σ
  | (tj, author) :: rest, σ =>
    match tj with
    | TickersJson.arr ts => procRows rest (ts.foldl (procTicker author) σ)
    | TickersJson.invalid => procRows rest σ
    | TickersJson.scalar => none

/-- The weighted score mapping: Ticker Score = Total Mentions times Unique
Authors; none models the run aborting with an uncaught TypeError. -/
def calculate_weighted_scores (st : List Thread) (start_utc : Int) :
    Option (List (String × Nat)) :=
  match procRows (scoreRows st start_utc) initScoreState with
  | none => none
  | some σ => some (σ.keys.map (fun tk => (tk, σ.mentions tk * (σ.authors tk).length)))

/-- Lookup of a ticker in the returned mapping. -/
def lookupScore (m : List (String × Nat)) (tk : String) : Option Nat :=
  (m.find? (fun p => p.1 == tk)).map (fun p => p.2)

/-! ## Scheduler

main_loop keeps one last run timestamp per job and, once per iteration, runs
every job whose elapsed time reaches its interval, assigning the current
time of the iteration to its marker AFTER the call returns; the whole
sequence sits in one try block, so a call that raises jumps to a handler and
skips its own marker assignment and all later jobs.  The iteration body is
embedded below; the outcome record says, for each call site, whether the
call raises an exception into main_loop (none: the call returns normally,
which for harvest_new_threads and check_for_deletions includes the errors
they catch themselves).  The sleep computation and the guard that only
sleeps for a positive duration are embedded verbatim; note the computed
minimum does not contain a term for the second daily report. -/

def HARVEST_INTERVAL : Int := 1
def CHECK_INTERVAL : Int := 30
def ANALYSIS_INTERVAL : Int := 60
def REPORT_HOURLY_INTERVAL : Int := 3600
def REPORT_DAILY_INTERVAL_1 : Int := 43200
def REPORT_DAILY_INTERVAL_2 : Int := 43200
def REPORT_WEEKLY_INTERVAL : Int := 86400

/-- The last run markers of the seven scheduled jobs. -/
structure SchedState where
  last_harvest : Int
  last_check : Int
  last_analysis : Int
  last_report_hourly : Int
  last_report_daily_1 : Int
  last_report_daily_2 : Int
  last_report_weekly : Int
deriving DecidableEq, Repr

/-- Exception classes distinguished by the handlers of main_loop. -/
inductive JobErr
  | api
  | db
  | other
deriving DecidableEq, Repr

/-- For each call site of the iteration, whether the call raises into
main_loop and with which exception class. -/
structure IterOutcomes where
  harvestErr : Option JobErr
  checkErr : Option JobErr
  analyzeErr : Option JobErr
  hourlyErr : Option JobErr
  daily1Err : Option JobErr
  daily2Err : Option JobErr
  weeklyErr : Option JobErr
deriving DecidableEq, Repr

/-- All calls return normally. -/
def allOk : IterOutcomes := ⟨none, none, none, none, none, none, none⟩

/-- How one iteration ends: the sleep branch carries the computed
sleep_time (the actual sleep is skipped unless it is positive); the three
handlers are the API cooldown of 60 seconds, the database reset with a 10
second delay, and the fatal branch that leaves the loop. -/
inductive IterExit
  | slept : Int → IterExit
  | apiCooldown
  | dbReset
  | fatal
deriving DecidableEq, Repr

/-- The handler reached by each exception class. -/
def jobHandler : JobErr → IterExit
  | JobErr.api => IterExit.apiCooldown
  | JobErr.db => IterExit.dbReset
  | JobErr.other => IterExit.fatal

/-- One guarded job of the iteration, in continuation style: when due, a
raising call aborts the iteration into its handler, a returning call gets
its marker assignment; when not due, nothing happens. -/
def schedStep (due : SchedState → Bool) (err : Option JobErr)
    (upd : SchedState → SchedState)
    (k : SchedState → SchedState × IterExit) (σ : SchedState) :
    SchedState × IterExit :=
  if due σ then
    match err with
    | some e => (σ, jobHandler e)
    | none => k (upd σ)
  else k σ

/-- The sleep duration computed at the end of a full iteration, on the
updated markers: the minimum of the remaining time of harvest, check,
analysis, the hourly report, the first daily report and the weekly report,
capped at 10; the second daily report has no term. -/
def sleepCalc (now : Int) (σ : SchedState) : Int :=
  min (HARVEST_INTERVAL - (now - σ.last_harvest))
    (min (CHECK_INTERVAL - (now - σ.last_check))
      (min (ANALYSIS_INTERVAL - (now - σ.last_analysis))
        (min (REPORT_HOURLY_INTERVAL - (now - σ.last_report_hourly))
          (min (REPORT_DAILY_INTERVAL_1 - (now - σ.last_report_daily_1))
            (min (REPORT_WEEKLY_INTERVAL - (now - σ.last_report_weekly))
              10)))))

/-- The sleep that is actually performed for a computed sleep_time: the
call is guarded by sleep_time being positive. -/
def actualSleep (s : Int) : Int := if 0 < s then s else 0

/-- The body of one iteration of main_loop: the seven guarded jobs in
program order (the guard of the second daily report also requires more than
half of the first daily interval since the first daily report, evaluated on
the current marker), then the sleep computation. -/
def mainIteration (o : IterOutcomes) (now : Int) (σ0 : SchedState) :
    SchedState × IterExit :=
  schedStep (fun σ => decide (HARVEST_INTERVAL ≤ now - σ.last_harvest))
    o.harvestErr (fun σ => { σ with last_harvest := now })
  (schedStep (fun σ => decide (CHECK_INTERVAL ≤ now - σ.last_check))
    o.checkErr (fun σ => { σ with last_check := now })
  (schedStep (fun σ => decide (ANALYSIS_INTERVAL ≤ now - σ.last_analysis))
    o.analyzeErr (fun σ => { σ with last_analysis := now })
  (schedStep (fun σ => decide (REPORT_HOURLY_INTERVAL ≤ now - σ.last_report_hourly))
    o.hourlyErr (fun σ => { σ with last_report_hourly := now })
  (schedStep (fun σ => decide (REPORT_DAILY_INTERVAL_1 ≤ now - σ.last_report_daily_1))
    o.daily1Err (fun σ => { σ with last_report_daily_1 := now })
  (schedStep (fun σ => decide (REPORT_DAILY_INTERVAL_2 ≤ now - σ.last_report_daily_2 ∧
      REPORT_DAILY_INTERVAL_1 / 2 < now - σ.last_report_daily_1))
    o.daily2Err (fun σ => { σ with last_report_daily_2 := now })
  (schedStep (fun σ => decide (REPORT_WEEKLY_INTERVAL ≤ now - σ.last_report_weekly))
    o.weeklyErr (fun σ => { σ with last_report_weekly := now })
  (fun σ => (σ, IterExit.slept (sleepCalc now σ))))))))) σ0

/-! ## Lemmas about the harvester -/

theorem snapToThread_post_id (s : Snapshot) : (snapToThread s).post_id = s.id := rfl

theorem snapToThread_status (s : Snapshot) : (snapToThread s).status = Status.ACTIVE := rfl

/-- The harvest fold only appends rows built from the processed snapshots. -/
theorem harvest_fold_ext (snaps : List Snapshot) :
    ∀ st : List Thread, ∀ n : Nat,
      ∃ ext, (snaps.foldl harvestStep (st, n)).1 = st ++ ext ∧
        ∀ t ∈ ext, ∃ s ∈ snaps, t = snapToThread s := by
  induction snaps with
  | nil => intro st n; exact ⟨[], by simp⟩
  | cons s rest ih =>
    intro st n
    show ∃ ext, (rest.foldl harvestStep (harvestStep (st, n) s)).1 = st ++ ext ∧ _
    by_cases h : st.any (fun t => t.post_id == s.id)
    · have hstep : harvestStep (st, n) s = (st, n) := by simp [harvestStep, h]
      obtain ⟨ext, he, hall⟩ := ih st n
      exact ⟨ext, by rw [hstep]; exact he,
        fun t ht => by obtain ⟨s', hs', rfl⟩ := hall t ht; exact ⟨s', by simp [hs'], rfl⟩⟩
    · have hstep : harvestStep (st, n) s = (st ++ [snapToThread s], n + 1) := by
        simp [harvestStep, h]
      obtain ⟨ext, he, hall⟩ := ih (st ++ [snapToThread s]) (n + 1)
      refine ⟨snapToThread s :: ext, ?_, ?_⟩
      · rw [hstep, he]; simp
      · intro t ht
        rcases List.mem_cons.mp ht with h1 | h1
        · exact ⟨s, by simp, h1⟩
        · obtain ⟨s', hs', rfl⟩ := hall t h1; exact ⟨s', by simp [hs'], rfl⟩

/-- After the fold, every processed snapshot id is present in the store. -/
theorem harvest_fold_mem (snaps : List Snapshot) :
    ∀ st : List Thread, ∀ n : Nat, ∀ s ∈ snaps,
      (snaps.foldl harvestStep (st, n)).1.any (fun t => t.post_id == s.id) = true := by
  induction snaps with
  | nil => intro st n s hs; cases hs
  | cons s0 rest ih =>
    intro st n s hs
    show (rest.foldl harvestStep (harvestStep (st, n) s0)).1.any _ = true
    rcases List.mem_cons.mp hs with rfl | hmem
    · -- the head snapshot: its id is present right after its own step and
      -- presence survives the rest of the fold
      have hpresent : (harvestStep (st, n) s).1.any (fun t => t.post_id == s.id) = true := by
        by_cases h : st.any (fun t => t.post_id == s.id)
        · simp [harvestStep, h]
        · simp [harvestStep, h, List.any_append, snapToThread_post_id]
      obtain ⟨ext, he, _⟩ := harvest_fold_ext rest (harvestStep (st, n) s).1
        (harvestStep (st, n) s).2
      calc (rest.foldl harvestStep (harvestStep (st, n) s)).1.any
            (fun t => t.post_id == s.id)
          = ((harvestStep (st, n) s).1 ++ ext).any (fun t => t.post_id == s.id) := by
            rw [← he]
        _ = true := by simp [List.any_append]; left; simpa using hpresent
    · exact ih (harvestStep (st, n) s0).1 (harvestStep (st, n) s0).2 s hmem

/-- When every snapshot id is already present, the fold is the identity and
inserts nothing. -/
theorem harvest_fold_noop (snaps : List Snapshot) :
    ∀ st : List Thread, ∀ n : Nat,
      (∀ s ∈ snaps, st.any (fun t => t.post_id == s.id) = true) →
      snaps.foldl harvestStep (st, n) = (st, n) := by
  induction snaps with
  | nil => intro st n _; rfl
  | cons s rest ih =>
    intro st n h
    have hstep : harvestStep (st, n) s = (st, n) := by
      simp [harvestStep, h s (by simp)]
    show rest.foldl harvestStep (harvestStep (st, n) s) = (st, n)
    rw [hstep]
    exact ih st n (fun s' hs' => h s' (by simp [hs']))

/-- The fold preserves distinctness of the post ids. -/
theorem harvest_fold_nodup (snaps : List Snapshot) :
    ∀ st : List Thread, ∀ n : Nat,
      (st.map Thread.post_id).Nodup →
      ((snaps.foldl harvestStep (st, n)).1.map Thread.post_id).Nodup := by
  induction snaps with
  | nil => intro st n h; exact h
  | cons s rest ih =>
    intro st n h
    show (((rest.foldl harvestStep (harvestStep (st, n) s)).1).map Thread.post_id).Nodup
    by_cases hp : st.any (fun t => t.post_id == s.id)
    · rw [show harvestStep (st, n) s = (st, n) from by simp [harvestStep, hp]]
      exact ih st n h
    · rw [show harvestStep (st, n) s = (st ++ [snapToThread s], n + 1) from by
        simp [harvestStep, hp]]
      refine ih _ _ ?_
      have hnot : s.id ∉ st.map Thread.post_id := by
        intro hmem
        obtain ⟨t, ht, hid⟩ := List.mem_map.mp hmem
        have : st.any (fun t => t.post_id == s.id) = true :=
          List.any_eq_true.mpr ⟨t, ht, by simp [hid]⟩
        simp [this] at hp
      simp [List.nodup_append, h, hnot, snapToThread_post_id]

/-! ## Lemmas about the checker -/

/-- A left fold of pointwise maps is the map of the pointwise left folds. -/
theorem foldl_map_eq_map_foldl {α β : Type} (f : β → α → α) (l : List β)
    (xs : List α) :
    l.foldl (fun cur b => cur.map (f b)) xs =
      xs.map (fun x => l.foldl (fun x b => f b x) x) := by
  induction l generalizing xs with
  | nil => simp
  | cons b rest ih =>
    show rest.foldl _ (xs.map (f b)) = _
    rw [ih, List.map_map]
    rfl

theorem splitBare_t3 (p : String) : splitBare ("t3_" ++ p) = p := by
  have hdata : ("t3_" ++ p).data = 't' :: '3' :: '_' :: p.data := by
    rw [String.data_append]; rfl
  unfold splitBare
  rw [hdata]
  rw [List.dropWhile_cons_of_pos (by decide), List.dropWhile_cons_of_pos (by decide),
    List.dropWhile_cons_of_neg (by simp)]
  rfl

theorem insertDesc_mem (t x : Thread) (l : List Thread) :
    x ∈ insertDesc t l ↔ x = t ∨ x ∈ l := by
  induction l with
  | nil => simp [insertDesc]
  | cons u us ih =>
    by_cases h : u.created_utc ≤ t.created_utc
    · simp [insertDesc, h]
    · simp [insertDesc, h, ih]
      tauto

theorem sortDesc_mem (x : Thread) (l : List Thread) :
    x ∈ sortDesc l ↔ x ∈ l := by
  induction l with
  | nil => simp [sortDesc]
  | cons t ts ih => simp [sortDesc, insertDesc_mem, ih]

/-- Every selected row is a row of the store with status ACTIVE. -/
theorem checkSelect_mem {st : List Thread} {t : Thread}
    (h : t ∈ checkSelect st) : t ∈ st ∧ t.status = Status.ACTIVE := by
  have h1 : t ∈ sortDesc (st.filter (fun t => decide (t.status = Status.ACTIVE))) :=
    List.mem_of_mem_take h
  have h2 := (sortDesc_mem _ _).mp h1
  have h3 := List.mem_filter.mp h2
  exact ⟨h3.1, of_decide_eq_true h3.2⟩

/-- A queried fullname names a selected row. -/
theorem checkActiveIds_mem {st : List Thread} {fn : String}
    (h : fn ∈ checkActiveIds st) :
    ∃ t ∈ st, t.status = Status.ACTIVE ∧ fn = "t3_" ++ t.post_id := by
  obtain ⟨t, ht, rfl⟩ := List.mem_map.mp h
  obtain ⟨h1, h2⟩ := checkSelect_mem ht
  exact ⟨t, h1, h2, rfl⟩

/-- A bare id of the presumed removed set is the post id of an ACTIVE row
of the store. -/
theorem checkBareDeleted_mem {st : List Thread} {resp : List SubInfo} {p : String}
    (h : p ∈ checkBareDeleted st resp) :
    ∃ t ∈ st, t.status = Status.ACTIVE ∧ t.post_id = p := by
  obtain ⟨fn, hfn, rfl⟩ := List.mem_map.mp h
  have hfn2 : fn ∈ checkActiveIds st := by
    have := List.mem_dedup.mp hfn
    exact (List.mem_filter.mp this).1
  obtain ⟨t, ht, hact, rfl⟩ := checkActiveIds_mem hfn2
  exact ⟨t, ht, hact, (splitBare_t3 t.post_id).symm ▸ rfl⟩

theorem updSub_post_id (now2 : Int) (sub : SubInfo) (t : Thread) :
    (updSub now2 sub t).post_id = t.post_id := by
  unfold updSub
  cases sub.removed_by_category with
  | none => rfl
  | some cat => by_cases h : cat ∈ flaggedCategories ∧ t.post_id = sub.id <;> simp [h]

theorem updSub_removed (now2 : Int) (sub : SubInfo) (t : Thread)
    (h : t.status = Status.REMOVED) : (updSub now2 sub t).status = Status.REMOVED := by
  unfold updSub
  cases sub.removed_by_category with
  | none => exact h
  | some cat => by_cases hc : cat ∈ flaggedCategories ∧ t.post_id = sub.id <;> simp [hc, h]

theorem foldSub_post_id (resp : List SubInfo) (now2 : Int) (t : Thread) :
    (resp.foldl (fun t sub => updSub now2 sub t) t).post_id = t.post_id := by
  induction resp generalizing t with
  | nil => rfl
  | cons sub rest ih => rw [List.foldl_cons, ih, updSub_post_id]

theorem foldSub_removed (resp : List SubInfo) (now2 : Int) (t : Thread)
    (h : t.status = Status.REMOVED) :
    (resp.foldl (fun t sub => updSub now2 sub t) t).status = Status.REMOVED := by
  induction resp generalizing t with
  | nil => exact h
  | cons sub rest ih => exact ih _ (updSub_removed now2 sub t h)

/-- Status of a thread after the loop over returned submissions: unchanged,
or REMOVED for a thread matched by a returned submission that carries a
removal marker. -/
theorem foldSub_status (resp : List SubInfo) (now2 : Int) (t : Thread) :
    (resp.foldl (fun t sub => updSub now2 sub t) t).status = t.status ∨
      ((resp.foldl (fun t sub => updSub now2 sub t) t).status = Status.REMOVED ∧
        ∃ sub ∈ resp, ∃ cat, sub.removed_by_category = some cat ∧
          cat ∈ flaggedCategories ∧ t.post_id = sub.id) := by
  induction resp generalizing t with
  | nil => left; rfl
  | cons sub rest ih =>
    rw [List.foldl_cons]
    rcases hcat : sub.removed_by_category with _ | cat
    · have : updSub now2 sub t = t := by unfold updSub; rw [hcat]
      rw [this]
      rcases ih t with h | ⟨h1, s', hs', hrest⟩
      · exact Or.inl h
      · exact Or.inr ⟨h1, s', by simp [hs'], hrest⟩
    · by_cases hc : cat ∈ flaggedCategories ∧ t.post_id = sub.id
      · have hupd : (updSub now2 sub t).status = Status.REMOVED ∧
            (updSub now2 sub t).post_id = t.post_id := by
          unfold updSub; rw [hcat]; simp [hc]
        right
        refine ⟨foldSub_removed rest now2 _ hupd.1, sub, by simp, cat, hcat, hc.1, hc.2⟩
      · have : updSub now2 sub t = t := by unfold updSub; rw [hcat]; simp [hc]
        rw [this]
        rcases ih t with h | ⟨h1, s', hs', hrest⟩
        · exact Or.inl h
        · exact Or.inr ⟨h1, s', by simp [hs'], hrest⟩

/-- The per thread effect of one whole checker run. -/
def checkThreadFn (st : List Thread) (resp : List SubInfo) (now now2 : Int)
    (t : Thread) : Thread :=
  resp.foldl (fun t sub => updSub now2 sub t)
    (markRemovedBatch (checkBareDeleted st resp) now t)

/-- A checker run is a pointwise map over the store. -/
theorem check_eq_map (st : List Thread) (resp : List SubInfo) (now now2 : Int) :
    check_for_deletions st resp now now2 = st.map (checkThreadFn st resp now now2) ∨
      (check_for_deletions st resp now now2 = st ∧ checkActiveIds st = []) := by
  unfold check_for_deletions
  by_cases h : (checkActiveIds st).isEmpty
  · exact Or.inr ⟨by simp [h], by simpa [List.isEmpty_iff] using h⟩
  · left
    simp only [h, Bool.false_eq_true, if_false]
    rw [foldl_map_eq_map_foldl, List.map_map]
    rfl

theorem markRemovedBatch_post_id (bare : List String) (now : Int) (t : Thread) :
    (markRemovedBatch bare now t).post_id = t.post_id := by
  unfold markRemovedBatch
  by_cases h : t.post_id ∈ bare <;> simp [h]

theorem checkThreadFn_post_id (st : List Thread) (resp : List SubInfo)
    (now now2 : Int) (t : Thread) :
    (checkThreadFn st resp now now2 t).post_id = t.post_id := by
  unfold checkThreadFn
  rw [foldSub_post_id, markRemovedBatch_post_id]

/-- Status change of one row under a checker run, assuming the primary key
constraint on the store and that the source only returns submissions among
the queried fullnames: the status is unchanged, or the row was ACTIVE and
becomes REMOVED. -/
theorem checkThreadFn_status (st : List Thread) (resp : List SubInfo)
    (now now2 : Int) (t : Thread)
    (hN : (st.map Thread.post_id).Nodup)
    (hresp : ∀ sub ∈ resp, sub.fullname ∈ checkActiveIds st)
    (ht : t ∈ st) :
    (checkThreadFn st resp now now2 t).status = t.status ∨
      (t.status = Status.ACTIVE ∧
        (checkThreadFn st resp now now2 t).status = Status.REMOVED) := by
  unfold checkThreadFn
  have hinj := List.inj_on_of_nodup_map hN
  by_cases hb : t.post_id ∈ checkBareDeleted st resp
  · -- the batch marks t REMOVED; t was ACTIVE by the key constraint
    obtain ⟨ta, hta, hact, hid⟩ := checkBareDeleted_mem hb
    have hteq : ta = t := hinj hta ht hid
    have hAct : t.status = Status.ACTIVE := hteq ▸ hact
    have hm : (markRemovedBatch (checkBareDeleted st resp) now t).status =
        Status.REMOVED := by unfold markRemovedBatch; simp [hb]
    exact Or.inr ⟨hAct, foldSub_removed _ _ _ hm⟩
  · have hm : markRemovedBatch (checkBareDeleted st resp) now t = t := by
      unfold markRemovedBatch; simp [hb]
    rw [hm]
    rcases foldSub_status resp now2 t with h | ⟨h1, sub, hsub, cat, hcat, hflag, hid⟩
    · exact Or.inl h
    · -- t is matched by a returned flagged submission, so t was queried, so
      -- t was selected as ACTIVE
      have hfull : sub.fullname ∈ checkActiveIds st := hresp sub hsub
      obtain ⟨ta, hta, hact, hfneq⟩ := checkActiveIds_mem hfull
      have hideq : ta.post_id = t.post_id := by
        have : sub.id = ta.post_id := by
          have := congrArg splitBare hfneq
          rwa [SubInfo.fullname, splitBare_t3, splitBare_t3] at this
        rw [← this, hid]
      have hteq : ta = t := hinj hta ht hideq
      exact Or.inr ⟨hteq ▸ hact, h1⟩

/-! ## Lemmas about the analyzer -/

/-- The selection of the analyzer: post_id, title and selftext of every
REMOVED row. -/
def analyzeRows (st : List Thread) : List (String × String × String) :=
  (st.filter (fun t => decide (t.status = Status.REMOVED))).map
    (fun t => (t.post_id, t.title, t.selftext))

/-- The per thread effect of the analyzer fold. -/
def analyzeThreadFn (allowed : List String)
    (rows : List (String × String × String)) (t : Thread) : Thread :=
  rows.foldl (fun t row => analyzeUpdOne allowed row t) t

theorem analyze_eq (allowed : List String) (st : List Thread) :
    analyze_removed_threads allowed st =
      if (analyzeRows st).isEmpty then (st, 0)
      else if allowed.isEmpty then (st, 0)
      else
        ((analyzeRows st).foldl
            (fun cur row => cur.map (analyzeUpdOne allowed row)) st,
         ((analyzeRows st).filter
            (fun row => !(verifiedTickers allowed row.2.1 row.2.2).isEmpty)).length) :=
  rfl

/-- With rows to analyze and a non empty allow list, the analyzer updates
the store as a pointwise map. -/
theorem analyze_fst_map (allowed : List String) (st : List Thread)
    (h1 : ¬(analyzeRows st).isEmpty = true) (h2 : ¬allowed.isEmpty = true) :
    (analyze_removed_threads allowed st).1 =
      st.map (analyzeThreadFn allowed (analyzeRows st)) := by
  rw [analyze_eq]
  simp only [h1, h2, Bool.false_eq_true, if_false]
  rw [foldl_map_eq_map_foldl]
  rfl

theorem analyzeUpdOne_post_id (allowed : List String)
    (row : String × String × String) (t : Thread) :
    (analyzeUpdOne allowed row t).post_id = t.post_id := by
  unfold analyzeUpdOne
  by_cases hv : (verifiedTickers allowed row.2.1 row.2.2).isEmpty <;>
    by_cases hm : t.post_id = row.1 <;> simp [hv, hm]

theorem analyzeUpdOne_no_match (allowed : List String)
    (row : String × String × String) (t : Thread) (h : ¬t.post_id = row.1) :
    analyzeUpdOne allowed row t = t := by
  unfold analyzeUpdOne
  by_cases hv : (verifiedTickers allowed row.2.1 row.2.2).isEmpty <;> simp [hv, h]

theorem analyzeThreadFn_post_id (allowed : List String)
    (rows : List (String × String × String)) (t : Thread) :
    (analyzeThreadFn allowed rows t).post_id = t.post_id := by
  induction rows generalizing t with
  | nil => rfl
  | cons row rest ih =>
    show (analyzeThreadFn allowed rest (analyzeUpdOne allowed row t)).post_id = _
    rw [ih, analyzeUpdOne_post_id]

theorem analyzeThreadFn_no_match (allowed : List String)
    (rows : List (String × String × String)) (t : Thread)
    (h : ∀ row ∈ rows, ¬t.post_id = row.1) :
    analyzeThreadFn allowed rows t = t := by
  induction rows with
  | nil => rfl
  | cons row rest ih =>
    show analyzeThreadFn allowed rest (analyzeUpdOne allowed row t) = t
    rw [analyzeUpdOne_no_match allowed row t (h row (by simp)), ih]
    exact fun r hr => h r (by simp [hr])

/-- When exactly one row of the selection matches the thread, the fold is
the single matching update. -/
theorem analyzeThreadFn_single (allowed : List String)
    (l1 l2 : List (String × String × String)) (r : String × String × String)
    (t : Thread)
    (h1 : ∀ row ∈ l1, ¬t.post_id = row.1) (_hr : t.post_id = r.1)
    (h2 : ∀ row ∈ l2, ¬t.post_id = row.1) :
    analyzeThreadFn allowed (l1 ++ r :: l2) t = analyzeUpdOne allowed r t := by
  unfold analyzeThreadFn
  rw [List.foldl_append]
  have e1 : l1.foldl (fun t row => analyzeUpdOne allowed row t) t = t :=
    analyzeThreadFn_no_match allowed l1 t h1
  rw [e1, List.foldl_cons]
  refine analyzeThreadFn_no_match allowed l2 _ ?_
  intro row hrow
  rw [analyzeUpdOne_post_id]
  exact fun he => h2 row hrow he

/-- The ids of the selected rows are distinct under the key constraint. -/
theorem analyzeRows_nodup (st : List Thread)
    (hN : (st.map Thread.post_id).Nodup) :
    ((analyzeRows st).map (fun row => row.1)).Nodup := by
  unfold analyzeRows
  rw [List.map_map]
  have hsub : (st.filter (fun t => decide (t.status = Status.REMOVED))).Sublist st :=
    List.filter_sublist st
  exact hN.sublist (hsub.map Thread.post_id)

/-- The full characterisation of the analyzer fold on one row of the store:
a REMOVED row becomes ANALYZED, with the serialized verified set stored when
it is non empty; every other row is untouched. -/
theorem analyzeThreadFn_char (allowed : List String) (st : List Thread)
    (t : Thread) (hN : (st.map Thread.post_id).Nodup) (ht : t ∈ st) :
    analyzeThreadFn allowed (analyzeRows st) t =
      if t.status = Status.REMOVED then
        (if (verifiedTickers allowed t.title t.selftext).isEmpty then
          { t with status := Status.ANALYZED }
        else
          { t with status := Status.ANALYZED
                   extracted_tickers :=
                     some (TickersJson.arr (verifiedTickers allowed t.title t.selftext)) })
      else t := by
  have hinj := List.inj_on_of_nodup_map hN
  by_cases hrem : t.status = Status.REMOVED
  · -- the row derived from t is in the selection
    have hmemf : t ∈ st.filter (fun t => decide (t.status = Status.REMOVED)) :=
      List.mem_filter.mpr ⟨ht, by simp [hrem]⟩
    have hrow : (t.post_id, t.title, t.selftext) ∈ analyzeRows st :=
      List.mem_map.mpr ⟨t, hmemf, rfl⟩
    obtain ⟨l1, l2, hsplit⟩ := List.append_of_mem hrow
    have hnd := analyzeRows_nodup st hN
    rw [hsplit] at hnd
    rw [List.map_append, List.map_cons] at hnd
    rw [List.nodup_append] at hnd
    obtain ⟨hnd1, hnd2, hdisj⟩ := hnd
    have hnotin2 : t.post_id ∉ l2.map (fun row => row.1) :=
      (List.nodup_cons.mp hnd2).1
    have hnotin1 : t.post_id ∉ l1.map (fun row => row.1) := by
      intro hmem
      exact hdisj hmem (by simp)
    have h1 : ∀ row ∈ l1, ¬t.post_id = row.1 := by
      intro row hr he
      exact hnotin1 (List.mem_map.mpr ⟨row, hr, he.symm⟩)
    have h2 : ∀ row ∈ l2, ¬t.post_id = row.1 := by
      intro row hr he
      exact hnotin2 (List.mem_map.mpr ⟨row, hr, he.symm⟩)
    rw [hsplit, analyzeThreadFn_single allowed l1 l2 _ t h1 rfl h2]
    unfold analyzeUpdOne
    by_cases hv : (verifiedTickers allowed t.title t.selftext).isEmpty <;>
      simp [hv, hrem]
  · -- no selected row carries the id of t
    rw [analyzeThreadFn_no_match allowed (analyzeRows st) t, if_neg hrem]
    intro row hrow he
    obtain ⟨ta, hta, hproj⟩ := List.mem_map.mp hrow
    have htaRem : ta.status = Status.REMOVED := by
      have := (List.mem_filter.mp hta).2
      exact of_decide_eq_true this
    have htaMem : ta ∈ st := (List.mem_filter.mp hta).1
    have hid : ta.post_id = t.post_id := by rw [← hproj] at he; exact he.symm
    have : ta = t := hinj htaMem ht hid
    exact hrem (this ▸ htaRem)

/-! ## Claim theorems: lifecycle and harvester -/

/-- Helper for concrete witnesses: a thread row with default counters. -/
def mkRow (pid ti se au : String) (cr : Int) (ru : Option Int) (stt : Status)
    (tj : Option TickersJson) : Thread :=
  { post_id := pid, title := ti, selftext := se, author_name := au,
    created_utc := cr, removed_utc := ru, initial_score := 0,
    num_comments_initial := 0, link_flair := "", status := stt,
    removal_category := none, extracted_tickers := tj }

/-- C1: every operation only moves a status forward along ACTIVE, REMOVED,
ANALYZED.  The harvester only appends rows and every appended row has
status ACTIVE; a checker run is a pointwise map that either leaves the
status of a row unchanged or takes an ACTIVE row to REMOVED (under the
primary key constraint and the contract that reddit.info only returns
queried fullnames); an analyzer run is a pointwise map that either leaves
the status unchanged or takes a REMOVED row to ANALYZED.  No operation sets
an earlier status or skips a state; the scorer is embedded as a pure
reader and does not produce a store at all. -/
theorem c1_status_monotone (st : List Thread) (snaps : List Snapshot)
    (resp : List SubInfo) (now now2 : Int) (allowed : List String)
    (hN : (st.map Thread.post_id).Nodup)
    (hresp : ∀ sub ∈ resp, sub.fullname ∈ checkActiveIds st) :
    (∃ ext, (harvest_new_threads st snaps).1 = st ++ ext ∧
       ∀ t ∈ ext, t.status = Status.ACTIVE) ∧
    (∃ f, check_for_deletions st resp now now2 = st.map f ∧
       ∀ t ∈ st, (f t).post_id = t.post_id ∧
         ((f t).status = t.status ∨
           (t.status = Status.ACTIVE ∧ (f t).status = Status.REMOVED))) ∧
    (∃ g, (analyze_removed_threads allowed st).1 = st.map g ∧
       ∀ t ∈ st, (g t).post_id = t.post_id ∧
         ((g t).status = t.status ∨
           (t.status = Status.REMOVED ∧ (g t).status = Status.ANALYZED))) := by
  refine ⟨?_, ?_, ?_⟩
  · obtain ⟨ext, he, hall⟩ := harvest_fold_ext snaps st 0
    refine ⟨ext, he, fun t ht => ?_⟩
    obtain ⟨s, _, rfl⟩ := hall t ht
    exact snapToThread_status s
  · rcases check_eq_map st resp now now2 with h | ⟨h, _⟩
    · exact ⟨checkThreadFn st resp now now2, h, fun t ht =>
        ⟨checkThreadFn_post_id st resp now now2 t,
         checkThreadFn_status st resp now now2 t hN hresp ht⟩⟩
    · refine ⟨id, ?_, fun t ht => ⟨rfl, Or.inl rfl⟩⟩
      rw [h, List.map_id]
  · by_cases h1 : (analyzeRows st).isEmpty
    · refine ⟨id, ?_, fun t ht => ⟨rfl, Or.inl rfl⟩⟩
      rw [analyze_eq]
      simp [h1, List.map_id]
    · by_cases h2 : allowed.isEmpty
      · refine ⟨id, ?_, fun t ht => ⟨rfl, Or.inl rfl⟩⟩
        rw [analyze_eq]
        simp [h1, h2, List.map_id]
      · refine ⟨analyzeThreadFn allowed (analyzeRows st),
          analyze_fst_map allowed st h1 h2, fun t ht => ?_⟩
        refine ⟨analyzeThreadFn_post_id allowed (analyzeRows st) t, ?_⟩
        rw [analyzeThreadFn_char allowed st t hN ht]
        by_cases hrem : t.status = Status.REMOVED
        · right
          refine ⟨hrem, ?_⟩
          by_cases hv : (verifiedTickers allowed t.title t.selftext).isEmpty <;>
            simp [hrem, hv]
        · left
          simp [hrem]

/-- Concrete two row store for the C1 witness: one ACTIVE and one REMOVED
row. -/
def c1DemoStore : List Thread :=
  [mkRow "a1" "T" "" "al" 5 none Status.ACTIVE none,
   mkRow "r1" "U" "" "bo" 4 (some 9) Status.REMOVED none]

theorem c1_status_monotone_witness :
    (∃ ext, (harvest_new_threads c1DemoStore
          [⟨"n1", "V", none, none, 1, 0, 0, none⟩]).1 =
        c1DemoStore ++ ext ∧ ∀ t ∈ ext, t.status = Status.ACTIVE) ∧
    (∃ f, check_for_deletions c1DemoStore [⟨"a1", some "moderator"⟩] 50 51 =
        c1DemoStore.map f ∧
      ∀ t ∈ c1DemoStore, (f t).post_id = t.post_id ∧
        ((f t).status = t.status ∨
          (t.status = Status.ACTIVE ∧ (f t).status = Status.REMOVED))) ∧
    (∃ g, (analyze_removed_threads ["BTQ"] c1DemoStore).1 = c1DemoStore.map g ∧
      ∀ t ∈ c1DemoStore, (g t).post_id = t.post_id ∧
        ((g t).status = t.status ∨
          (t.status = Status.REMOVED ∧ (g t).status = Status.ANALYZED))) :=
  c1_status_monotone c1DemoStore [⟨"n1", "V", none, none, 1, 0, 0, none⟩]
    [⟨"a1", some "moderator"⟩] 50 51 ["BTQ"] (by decide) (by decide)

/-- C5: harvesting is idempotent: a second run over the same snapshot list
returns the store of the first run unchanged with an insertion count of
zero; the first run only appends rows after the existing ones, so no field
of an already present row is modified; and the key constraint is preserved,
so no duplicate rows arise. -/
theorem c5_harvest_idempotent (st : List Thread) (snaps : List Snapshot)
    (hN : (st.map Thread.post_id).Nodup) :
    harvest_new_threads (harvest_new_threads st snaps).1 snaps =
      ((harvest_new_threads st snaps).1, 0) ∧
    (∃ ext, (harvest_new_threads st snaps).1 = st ++ ext) ∧
    ((harvest_new_threads st snaps).1.map Thread.post_id).Nodup := by
  refine ⟨?_, ?_, ?_⟩
  · exact harvest_fold_noop snaps _ 0 (fun s hs => harvest_fold_mem snaps st 0 s hs)
  · obtain ⟨ext, he, _⟩ := harvest_fold_ext snaps st 0
    exact ⟨ext, he⟩
  · exact harvest_fold_nodup snaps st 0 hN

theorem c5_harvest_idempotent_witness :
    harvest_new_threads
        (harvest_new_threads [] [⟨"s1", "T", some "b", some "al", 5, 1, 2, none⟩,
          ⟨"s1", "T", some "b", some "al", 5, 1, 2, none⟩,
          ⟨"s2", "U", none, none, 6, 0, 0, some "DD"⟩]).1
        [⟨"s1", "T", some "b", some "al", 5, 1, 2, none⟩,
          ⟨"s1", "T", some "b", some "al", 5, 1, 2, none⟩,
          ⟨"s2", "U", none, none, 6, 0, 0, some "DD"⟩] =
      ((harvest_new_threads [] [⟨"s1", "T", some "b", some "al", 5, 1, 2, none⟩,
          ⟨"s1", "T", some "b", some "al", 5, 1, 2, none⟩,
          ⟨"s2", "U", none, none, 6, 0, 0, some "DD"⟩]).1, 0) ∧
    (∃ ext, (harvest_new_threads [] [⟨"s1", "T", some "b", some "al", 5, 1, 2, none⟩,
          ⟨"s1", "T", some "b", some "al", 5, 1, 2, none⟩,
          ⟨"s2", "U", none, none, 6, 0, 0, some "DD"⟩]).1 = [] ++ ext) ∧
    ((harvest_new_threads [] [⟨"s1", "T", some "b", some "al", 5, 1, 2, none⟩,
          ⟨"s1", "T", some "b", some "al", 5, 1, 2, none⟩,
          ⟨"s2", "U", none, none, 6, 0, 0, some "DD"⟩]).1.map Thread.post_id).Nodup :=
  c5_harvest_idempotent [] _ (by decide)

/-! ## Claim theorems: ticker extraction -/

/-- The raw candidates of the test title, cleaned: the scan finds exactly
the token BTQ. -/
theorem btq_candidates :
    (findallTicker ("BTQ to the moon" ++ " " ++ "")).map cleanTicker = ["BTQ"] := rfl

theorem btq_verified_mem (allowed : List String) (h : "BTQ" ∈ allowed) :
    verifiedTickers allowed "BTQ to the moon" "" = ["BTQ"] := by
  unfold verifiedTickers
  rw [btq_candidates, List.filter_cons_of_pos (by simpa using h)]
  rfl

theorem btq_verified_not_mem (allowed : List String) (h : "BTQ" ∉ allowed) :
    verifiedTickers allowed "BTQ to the moon" "" = [] := by
  unfold verifiedTickers
  rw [btq_candidates, List.filter_cons_of_neg (by simpa using h)]
  rfl

/-- The one row test store of the C2 scenario. -/
def btqRow : Thread :=
  mkRow "p1" "BTQ to the moon" "" "au" 0 (some 10) Status.REMOVED none

/-- C2: analyzing a REMOVED thread titled BTQ to the moon with an empty
body stores the serialized set of exactly BTQ and status ANALYZED when the
allow list contains BTQ, and leaves the ticker column null while still
setting status ANALYZED when the non empty allow list does not contain
BTQ.  In general, under the key constraint and the invariant that REMOVED
rows carry no ticker value, the persisted ticker set of every analyzed row
is the deduplicated list of cleaned (dollar stripped, upper cased)
candidates of title and body that belong to the allow list, stored as null
exactly when that intersection is empty. -/
theorem c2_ticker_extraction (st : List Thread) (allowed : List String)
    (hN : (st.map Thread.post_id).Nodup)
    (hall : ¬allowed.isEmpty = true)
    (hrm : ∀ t ∈ st, t.status = Status.REMOVED → t.extracted_tickers = none) :
    (∀ t ∈ st, t.status = Status.REMOVED →
      ∃ t' ∈ (analyze_removed_threads allowed st).1,
        t'.post_id = t.post_id ∧ t'.status = Status.ANALYZED ∧
        ((verifiedTickers allowed t.title t.selftext).isEmpty = true →
            t'.extracted_tickers = none) ∧
        ((verifiedTickers allowed t.title t.selftext).isEmpty = false →
            t'.extracted_tickers =
              some (TickersJson.arr (verifiedTickers allowed t.title t.selftext))) ∧
        (verifiedTickers allowed t.title t.selftext).Nodup ∧
        (∀ x, x ∈ verifiedTickers allowed t.title t.selftext ↔
            x ∈ (findallTicker (t.title ++ " " ++ t.selftext)).map cleanTicker ∧
              x ∈ allowed)) ∧
    ("BTQ" ∈ allowed →
      analyze_removed_threads allowed [btqRow] =
        ([{ btqRow with
              status := Status.ANALYZED
              extracted_tickers := some (TickersJson.arr ["BTQ"]) }], 1)) ∧
    ("BTQ" ∉ allowed →
      analyze_removed_threads allowed [btqRow] =
        ([{ btqRow with status := Status.ANALYZED }], 0)) := by
  refine ⟨?_, ?_, ?_⟩
  · intro t ht hrem
    have h1 : ¬(analyzeRows st).isEmpty = true := by
      have hmemf : t ∈ st.filter (fun t => decide (t.status = Status.REMOVED)) :=
        List.mem_filter.mpr ⟨ht, by simp [hrem]⟩
      have : (t.post_id, t.title, t.selftext) ∈ analyzeRows st :=
        List.mem_map.mpr ⟨t, hmemf, rfl⟩
      intro he
      rw [List.isEmpty_iff.mp he] at this
      cases this
    refine ⟨analyzeThreadFn allowed (analyzeRows st) t, ?_, ?_⟩
    · rw [analyze_fst_map allowed st h1 hall]
      exact List.mem_map.mpr ⟨t, ht, rfl⟩
    · rw [analyzeThreadFn_char allowed st t hN ht, if_pos hrem]
      by_cases hv : (verifiedTickers allowed t.title t.selftext).isEmpty
      · refine ⟨by simp [hv], by simp [hv], by simp [hv, hrm t ht hrem], by simp [hv], ?_, ?_⟩
        · exact List.nodup_dedup _
        · intro x
          unfold verifiedTickers
          simp [List.mem_dedup, List.mem_filter]
      · refine ⟨by simp [hv], by simp [hv], ?_, by simp [hv], ?_, ?_⟩
        · intro habs
          rw [habs] at hv
          exact (hv rfl).elim
        · exact List.nodup_dedup _
        · intro x
          unfold verifiedTickers
          simp [List.mem_dedup, List.mem_filter]
  · intro h
    have hv := btq_verified_mem allowed h
    have hne : allowed.isEmpty = false := by
      cases allowed with
      | nil => cases h
      | cons a as => rfl
    rw [analyze_eq]
    have hrows : analyzeRows [btqRow] = [("p1", "BTQ to the moon", "")] := rfl
    rw [hrows]
    simp only [List.isEmpty_cons, hne, Bool.false_eq_true, if_false, List.foldl_cons,
      List.foldl_nil, List.map_cons, List.map_nil]
    unfold analyzeUpdOne
    simp [hv, btqRow, mkRow]
  · intro h
    have hv := btq_verified_not_mem allowed h
    have hne : allowed.isEmpty = false := by
      cases hh : allowed.isEmpty
      · rfl
      · exact absurd hh hall
    rw [analyze_eq]
    have hrows : analyzeRows [btqRow] = [("p1", "BTQ to the moon", "")] := rfl
    rw [hrows]
    simp only [List.isEmpty_cons, hne, Bool.false_eq_true, if_false, List.foldl_cons,
      List.foldl_nil, List.map_cons, List.map_nil]
    unfold analyzeUpdOne
    simp [hv, btqRow, mkRow]

theorem c2_ticker_extraction_witness :
    ((∀ t ∈ [btqRow], t.status = Status.REMOVED →
      ∃ t' ∈ (analyze_removed_threads ["BTQ", "GME"] [btqRow]).1,
        t'.post_id = t.post_id ∧ t'.status = Status.ANALYZED ∧
        ((verifiedTickers ["BTQ", "GME"] t.title t.selftext).isEmpty = true →
            t'.extracted_tickers = none) ∧
        ((verifiedTickers ["BTQ", "GME"] t.title t.selftext).isEmpty = false →
            t'.extracted_tickers =
              some (TickersJson.arr (verifiedTickers ["BTQ", "GME"] t.title t.selftext))) ∧
        (verifiedTickers ["BTQ", "GME"] t.title t.selftext).Nodup ∧
        (∀ x, x ∈ verifiedTickers ["BTQ", "GME"] t.title t.selftext ↔
            x ∈ (findallTicker (t.title ++ " " ++ t.selftext)).map cleanTicker ∧
              x ∈ ["BTQ", "GME"])) ∧
    ("BTQ" ∈ ["BTQ", "GME"] →
      analyze_removed_threads ["BTQ", "GME"] [btqRow] =
        ([{ btqRow with
              status := Status.ANALYZED
              extracted_tickers := some (TickersJson.arr ["BTQ"]) }], 1)) ∧
    ("BTQ" ∉ ["BTQ", "GME"] →
      analyze_removed_threads ["BTQ", "GME"] [btqRow] =
        ([{ btqRow with status := Status.ANALYZED }], 0))) :=
  c2_ticker_extraction [btqRow] ["BTQ", "GME"] (by decide) (by decide)
    (by decide)

/-- C4: with an empty allow list the analyzer run returns without touching
the store: every REMOVED row keeps all its fields, no row becomes ANALYZED
and the reported count is zero. -/
theorem c4_empty_allowlist (st : List Thread) :
    analyze_removed_threads [] st = (st, 0) := by
  rw [analyze_eq]
  by_cases h : (analyzeRows st).isEmpty <;> simp [h]

theorem c4_empty_allowlist_witness :
    analyze_removed_threads []
        [mkRow "r1" "AAA" "" "a" 0 (some 5) Status.REMOVED none] =
      ([mkRow "r1" "AAA" "" "a" 0 (some 5) Status.REMOVED none], 0) :=
  c4_empty_allowlist _

/-! ## Lemmas about the scorer -/

/-- Whether a selected row mentions the ticker (rows with an undecodable or
scalar value mention nothing). -/
def rowHasTicker (tk : String) (row : TickersJson × String) : Bool :=
  match row.1 with
  | TickersJson.arr ts => decide (tk ∈ ts)
  | _ => false

/-- The authors of the selected rows that mention the ticker, in row
order. -/
def rowAuthors (tk : String) (rows : List (TickersJson × String)) : List String :=
  (rows.filter (rowHasTicker tk)).map (fun row => row.2)

/-- A well formed selected row: the persisted value is a JSON array of
distinct strings, the only shape the analyzer writes. -/
def wellFormedRow (row : TickersJson × String) : Bool :=
  match row.1 with
  | TickersJson.arr ts => decide ts.Nodup
  | _ => false

/-- Set insertion on the author list representation. -/
def insertAuthor (l : List String) (a : String) : List String :=
  if a ∈ l then l else l ++ [a]

theorem insertAuthor_idem (l : List String) (a : String) :
    insertAuthor (insertAuthor l a) a = insertAuthor l a := by
  unfold insertAuthor
  by_cases h : a ∈ l
  · simp [h]
  · simp [h]

theorem mem_insertAuthor (l : List String) (a x : String) :
    x ∈ insertAuthor l a ↔ x ∈ l ∨ x = a := by
  unfold insertAuthor
  by_cases h : a ∈ l
  · simp [h]
    intro he
    exact he ▸ h
  · simp [h]

theorem nodup_insertAuthor (l : List String) (a : String) (h : l.Nodup) :
    (insertAuthor l a).Nodup := by
  unfold insertAuthor
  by_cases ha : a ∈ l
  · simpa [ha]
  · simp [ha, List.nodup_append, h]

theorem procTicker_mentions (author : String) (σ : ScoreState) (t x : String) :
    (procTicker author σ t).mentions x =
      σ.mentions x + (if x = t then 1 else 0) := by
  by_cases h : x = t
  · subst h
    simp [procTicker]
  · simp [procTicker, h]

theorem procTicker_keys_mem (author : String) (σ : ScoreState) (t x : String) :
    x ∈ (procTicker author σ t).keys ↔ x ∈ σ.keys ∨ x = t := by
  unfold procTicker
  by_cases hk : t ∈ σ.keys
  · simp [hk]
    intro he
    exact he ▸ hk
  · simp [hk]

/-- Effect of one row of tickers on the mention counts. -/
theorem foldTicker_mentions (author : String) (ts : List String)
    (σ : ScoreState) (x : String) :
    (ts.foldl (procTicker author) σ).mentions x = σ.mentions x + ts.count x := by
  induction ts generalizing σ with
  | nil => simp
  | cons t rest ih =>
    rw [List.foldl_cons, ih, procTicker_mentions]
    have hc : (t :: rest).count x = rest.count x + (if x = t then 1 else 0) := by
      by_cases h : x = t
      · subst h
        simp [List.count_cons]
      · simp [List.count_cons, h, fun he : t = x => h he.symm]
    rw [hc]
    omega

/-- Effect of one row of tickers on the author sets. -/
theorem foldTicker_authors (author : String) (ts : List String)
    (σ : ScoreState) (x : String) :
    (ts.foldl (procTicker author) σ).authors x =
      if x ∈ ts then insertAuthor (σ.authors x) author else σ.authors x := by
  induction ts generalizing σ with
  | nil => simp
  | cons t rest ih =>
    rw [List.foldl_cons, ih]
    by_cases hxt : x = t
    · subst hxt
      by_cases hxr : x ∈ rest
      · simp [hxr, procTicker, insertAuthor]
        by_cases hmem : author ∈ σ.authors x <;> simp [hmem, insertAuthor]
      · simp [hxr, procTicker, insertAuthor]
    · have : (procTicker author σ t).authors x = σ.authors x := by
        simp [procTicker, hxt]
      rw [this]
      by_cases hxr : x ∈ rest <;> simp [hxr, hxt]

/-- Effect of one row of tickers on the key list. -/
theorem foldTicker_keys (author : String) (ts : List String)
    (σ : ScoreState) (x : String) :
    x ∈ (ts.foldl (procTicker author) σ).keys ↔ x ∈ σ.keys ∨ x ∈ ts := by
  induction ts generalizing σ with
  | nil => simp
  | cons t rest ih =>
    rw [List.foldl_cons, ih]
    rw [procTicker_keys_mem]
    simp [List.mem_cons]
    tauto

theorem foldTicker_keys_nodup (author : String) (ts : List String)
    (σ : ScoreState) (h : σ.keys.Nodup) :
    (ts.foldl (procTicker author) σ).keys.Nodup := by
  induction ts generalizing σ with
  | nil => exact h
  | cons t rest ih =>
    rw [List.foldl_cons]
    refine ih _ ?_
    by_cases hk : t ∈ σ.keys
    · simpa [procTicker, hk]
    · simp [procTicker, hk, List.nodup_append, h]

theorem procRows_isSome (rows : List (TickersJson × String)) (σ : ScoreState)
    (h : ∀ row ∈ rows, row.1 ≠ TickersJson.scalar) :
    ∃ σ', procRows rows σ = some σ' := by
  induction rows generalizing σ with
  | nil => exact ⟨σ, rfl⟩
  | cons row rest ih =>
    obtain ⟨tj, author⟩ := row
    cases tj with
    | arr ts => exact ih _ (fun r hr => h r (by simp [hr]))
    | invalid => exact ih _ (fun r hr => h r (by simp [hr]))
    | scalar => exact absurd rfl (h (TickersJson.scalar, author) (by simp))

theorem procRows_mentions (rows : List (TickersJson × String))
    (hwf : ∀ row ∈ rows, wellFormedRow row = true) :
    ∀ σ σ' x, procRows rows σ = some σ' →
      σ'.mentions x = σ.mentions x + rows.countP (rowHasTicker x) := by
  induction rows with
  | nil =>
    intro σ σ' x h
    cases h
    simp
  | cons row rest ih =>
    intro σ σ' x h
    obtain ⟨tj, author⟩ := row
    cases tj with
    | arr ts =>
      have hts : ts.Nodup := by
        have := hwf (TickersJson.arr ts, author) (by simp)
        simpa [wellFormedRow] using this
      have hrec := ih (fun r hr => hwf r (by simp [hr]))
        (ts.foldl (procTicker author) σ) σ' x h
      rw [hrec, foldTicker_mentions]
      rw [List.countP_cons]
      have hcount : ts.count x = if rowHasTicker x (TickersJson.arr ts, author) then 1 else 0 := by
        by_cases hmem : x ∈ ts
        · simp [rowHasTicker, hmem, List.count_eq_one_of_mem hts hmem]
        · simp [rowHasTicker, hmem, List.count_eq_zero_of_not_mem hmem]
      rw [hcount]
      by_cases hrt : rowHasTicker x (TickersJson.arr ts, author)
      · simp only [hrt, if_true]
        omega
      · simp only [hrt, Bool.false_eq_true, if_false]
        omega
    | invalid =>
      have := hwf (TickersJson.invalid, author) (by simp)
      simp [wellFormedRow] at this
    | scalar =>
      have := hwf (TickersJson.scalar, author) (by simp)
      simp [wellFormedRow] at this

theorem procRows_authors (rows : List (TickersJson × String))
    (hwf : ∀ row ∈ rows, wellFormedRow row = true) :
    ∀ σ σ' x, procRows rows σ = some σ' →
      σ'.authors x = (rowAuthors x rows).foldl insertAuthor (σ.authors x) := by
  induction rows with
  | nil =>
    intro σ σ' x h
    cases h
    simp [rowAuthors]
  | cons row rest ih =>
    intro σ σ' x h
    obtain ⟨tj, author⟩ := row
    cases tj with
    | arr ts =>
      have hrec := ih (fun r hr => hwf r (by simp [hr]))
        (ts.foldl (procTicker author) σ) σ' x h
      rw [hrec, foldTicker_authors]
      by_cases hmem : x ∈ ts
      · have hrt : rowHasTicker x (TickersJson.arr ts, author) = true := by
          simp [rowHasTicker, hmem]
        simp [rowAuthors, List.filter_cons, hrt, hmem]
      · have hrt : rowHasTicker x (TickersJson.arr ts, author) = false := by
          simp [rowHasTicker, hmem]
        simp [rowAuthors, List.filter_cons, hrt, hmem]
    | invalid =>
      have := hwf (TickersJson.invalid, author) (by simp)
      simp [wellFormedRow] at this
    | scalar =>
      have := hwf (TickersJson.scalar, author) (by simp)
      simp [wellFormedRow] at this

theorem procRows_keys (rows : List (TickersJson × String))
    (hwf : ∀ row ∈ rows, wellFormedRow row = true) :
    ∀ σ σ' x, procRows rows σ = some σ' →
      (x ∈ σ'.keys ↔ x ∈ σ.keys ∨ ∃ row ∈ rows, rowHasTicker x row = true) := by
  induction rows with
  | nil =>
    intro σ σ' x h
    cases h
    simp
  | cons row rest ih =>
    intro σ σ' x h
    obtain ⟨tj, author⟩ := row
    cases tj with
    | arr ts =>
      have hrec := ih (fun r hr => hwf r (by simp [hr]))
        (ts.foldl (procTicker author) σ) σ' x h
      rw [hrec, foldTicker_keys]
      simp [rowHasTicker]
      tauto
    | invalid =>
      have := hwf (TickersJson.invalid, author) (by simp)
      simp [wellFormedRow] at this
    | scalar =>
      have := hwf (TickersJson.scalar, author) (by simp)
      simp [wellFormedRow] at this

theorem procRows_keys_nodup (rows : List (TickersJson × String)) :
    ∀ σ σ', procRows rows σ = some σ' → σ.keys.Nodup → σ'.keys.Nodup := by
  induction rows with
  | nil =>
    intro σ σ' h hσ
    cases h
    exact hσ
  | cons row rest ih =>
    intro σ σ' h hσ
    obtain ⟨tj, author⟩ := row
    cases tj with
    | arr ts => exact ih _ σ' h (foldTicker_keys_nodup author ts σ hσ)
    | invalid => exact ih _ σ' h hσ
    | scalar => cases h

theorem foldl_insertAuthor_mem (names : List String) :
    ∀ l x, x ∈ names.foldl insertAuthor l ↔ x ∈ l ∨ x ∈ names := by
  induction names with
  | nil => intro l x; simp
  | cons a rest ih =>
    intro l x
    rw [List.foldl_cons, ih, mem_insertAuthor]
    simp [List.mem_cons]
    tauto

theorem foldl_insertAuthor_nodup (names : List String) :
    ∀ l, l.Nodup → (names.foldl insertAuthor l).Nodup := by
  induction names with
  | nil => intro l h; exact h
  | cons a rest ih => intro l h; exact ih _ (nodup_insertAuthor l a h)

/-- The length of the accumulated author set is the number of distinct
author names. -/
theorem foldl_insertAuthor_length (names : List String) :
    (names.foldl insertAuthor []).length = names.toFinset.card := by
  have hnd : (names.foldl insertAuthor []).Nodup :=
    foldl_insertAuthor_nodup names [] List.nodup_nil
  have hset : (names.foldl insertAuthor []).toFinset = names.toFinset := by
    apply Finset.ext
    intro x
    simp [List.mem_toFinset, foldl_insertAuthor_mem]
  rw [← List.toFinset_card_of_nodup hnd, hset]

theorem lookupScore_map (keys : List String) (f : String → Nat) (tk : String)
    (h : keys.Nodup) :
    lookupScore (keys.map (fun k => (k, f k))) tk =
      if tk ∈ keys then some (f tk) else none := by
  induction keys with
  | nil => simp [lookupScore]
  | cons k ks ih =>
    have hns : ks.Nodup := (List.nodup_cons.mp h).2
    by_cases he : k = tk
    · subst he
      simp only [List.map_cons, lookupScore,
        List.find?_cons_of_pos _ (by simp : (((k, f k)).1 == k) = true)]
      simp
    · have hih := ih hns
      simp only [List.map_cons, lookupScore]
      rw [show List.find? (fun p => p.1 == tk) ((k, f k) :: List.map (fun k => (k, f k)) ks)
            = List.find? (fun p => p.1 == tk) (List.map (fun k => (k, f k)) ks) from
          List.find?_cons_of_neg _ (by simp [he])]
      simp only [lookupScore] at hih
      rw [hih]
      by_cases hm : tk ∈ ks
      · simp [hm, List.mem_cons]
      · simp [hm, List.mem_cons, Ne.symm he]

/-- Characterisation of a scorer run over well formed rows: the run
completes, and the returned mapping holds, exactly for the tickers with at
least one surviving in window mention, the product of the number of
mentioning rows and the number of distinct author names across them. -/
theorem calculate_char (st : List Thread) (s : Int)
    (hwf : ∀ row ∈ scoreRows st s, wellFormedRow row = true) :
    ∃ m, calculate_weighted_scores st s = some m ∧
      ∀ tk, lookupScore m tk =
        (if (scoreRows st s).any (rowHasTicker tk) then
          some ((scoreRows st s).countP (rowHasTicker tk) *
            (rowAuthors tk (scoreRows st s)).toFinset.card)
        else none) := by
  have hns : ∀ row ∈ scoreRows st s, row.1 ≠ TickersJson.scalar := by
    intro row hr he
    have := hwf row hr
    simp [wellFormedRow, he] at this
  obtain ⟨σ', hσ⟩ := procRows_isSome (scoreRows st s) initScoreState hns
  refine ⟨σ'.keys.map (fun tk => (tk, σ'.mentions tk * (σ'.authors tk).length)),
    ?_, ?_⟩
  · unfold calculate_weighted_scores
    rw [hσ]
  · intro tk
    have hnd : σ'.keys.Nodup :=
      procRows_keys_nodup _ _ _ hσ (by simp [initScoreState])
    rw [lookupScore_map _ _ _ hnd]
    have hkeys := procRows_keys _ hwf _ _ tk hσ
    have hment := procRows_mentions _ hwf _ _ tk hσ
    have hauth := procRows_authors _ hwf _ _ tk hσ
    simp only [initScoreState, List.not_mem_nil, false_or] at hkeys hment hauth
    by_cases hin : (scoreRows st s).any (rowHasTicker tk) = true
    · have hex : ∃ row ∈ scoreRows st s, rowHasTicker tk row = true := by
        simpa [List.any_eq_true] using hin
      rw [if_pos (hkeys.mpr hex), if_pos hin, hment, hauth,
        foldl_insertAuthor_length]
      simp
    · have hmem : tk ∉ σ'.keys := by
        rw [hkeys]
        intro hex
        exact hin (List.any_eq_true.mpr hex)
      rw [if_neg hmem, if_neg hin]

/-- The four row example store of the spec: three ANALYZED rows mentioning
XYZ inside the window of start 100 (two by alice, one by bob) and a fourth
outside it. -/
def xyzStore : List Thread :=
  [mkRow "x1" "t" "" "alice" 0 (some 150) Status.ANALYZED
      (some (TickersJson.arr ["XYZ"])),
   mkRow "x2" "t" "" "alice" 0 (some 200) Status.ANALYZED
      (some (TickersJson.arr ["XYZ"])),
   mkRow "x3" "t" "" "bob" 0 (some 100) Status.ANALYZED
      (some (TickersJson.arr ["XYZ"])),
   mkRow "x4" "t" "" "dave" 0 (some 50) Status.ANALYZED
      (some (TickersJson.arr ["XYZ"]))]

/-- C3: over well formed rows (JSON arrays of distinct tickers, the only
shape the analyzer persists), the scorer returns, for exactly the tickers
mentioned by at least one in window ANALYZED row with a non null ticker
column, the product of the number of such rows mentioning the ticker and
the number of distinct author names across them; absent tickers are missing
from the map rather than scored zero.  On the spec example store the score
of XYZ is 3 times 2 and the out of window row does not contribute. -/
theorem c3_weighted_scores (st : List Thread) (s : Int)
    (hwf : ∀ row ∈ scoreRows st s, wellFormedRow row = true) :
    (∃ m, calculate_weighted_scores st s = some m ∧
      ∀ tk, lookupScore m tk =
        (if (scoreRows st s).any (rowHasTicker tk) then
          some ((scoreRows st s).countP (rowHasTicker tk) *
            (rowAuthors tk (scoreRows st s)).toFinset.card)
        else none)) ∧
    calculate_weighted_scores xyzStore 100 = some [("XYZ", 6)] :=
  ⟨calculate_char st s hwf, by rfl⟩

theorem c3_weighted_scores_witness :
    (∃ m, calculate_weighted_scores xyzStore 100 = some m ∧
      ∀ tk, lookupScore m tk =
        (if (scoreRows xyzStore 100).any (rowHasTicker tk) then
          some ((scoreRows xyzStore 100).countP (rowHasTicker tk) *
            (rowAuthors tk (scoreRows xyzStore 100)).toFinset.card)
        else none)) ∧
    calculate_weighted_scores xyzStore 100 = some [("XYZ", 6)] :=
  c3_weighted_scores xyzStore 100 (by decide)

/-- C8: the window boundary of the scorer selection is inclusive: an
ANALYZED row with a non null ticker column whose removal timestamp equals
the window start is selected, while any row with a strictly smaller removal
timestamp fails the selection predicate; on one row stores, the boundary
row scores and the earlier row yields an empty map. -/
theorem c8_window_boundary (st : List Thread) (s : Int) :
    (∀ t ∈ st, t.status = Status.ANALYZED → ∀ tj, t.extracted_tickers = some tj →
      t.removed_utc = some s → (tj, t.author_name) ∈ scoreRows st s) ∧
    (∀ t : Thread, ∀ r : Int, t.removed_utc = some r → r < s →
      inWindowRow s t = false) ∧
    calculate_weighted_scores
        [mkRow "q" "t" "" "a" 0 (some 500) Status.ANALYZED
          (some (TickersJson.arr ["QQQ"]))] 500 = some [("QQQ", 1)] ∧
    calculate_weighted_scores
        [mkRow "q" "t" "" "a" 0 (some 499) Status.ANALYZED
          (some (TickersJson.arr ["QQQ"]))] 500 = some [] := by
  refine ⟨?_, ?_, by rfl, by rfl⟩
  · intro t ht hst tj htj hrem
    have hw : inWindowRow s t = true := by
      simp [inWindowRow, hst, hrem, htj]
    unfold scoreRows
    refine List.mem_filterMap.mpr ⟨t, List.mem_filter.mpr ⟨ht, hw⟩, ?_⟩
    rw [htj]
    rfl
  · intro t r hrem hlt
    have hd : decide (s ≤ r) = false := decide_eq_false (not_le.mpr hlt)
    simp [inWindowRow, hrem, hd]

theorem c8_window_boundary_witness :
    (∀ t ∈ [mkRow "q" "t" "" "a" 0 (some 500) Status.ANALYZED
          (some (TickersJson.arr ["QQQ"]))],
      t.status = Status.ANALYZED → ∀ tj, t.extracted_tickers = some tj →
      t.removed_utc = some 500 →
        (tj, t.author_name) ∈ scoreRows
          [mkRow "q" "t" "" "a" 0 (some 500) Status.ANALYZED
            (some (TickersJson.arr ["QQQ"]))] 500) ∧
    (∀ t : Thread, ∀ r : Int, t.removed_utc = some r → r < 500 →
      inWindowRow 500 t = false) ∧
    calculate_weighted_scores
        [mkRow "q" "t" "" "a" 0 (some 500) Status.ANALYZED
          (some (TickersJson.arr ["QQQ"]))] 500 = some [("QQQ", 1)] ∧
    calculate_weighted_scores
        [mkRow "q" "t" "" "a" 0 (some 499) Status.ANALYZED
          (some (TickersJson.arr ["QQQ"]))] 500 = some [] :=
  c8_window_boundary _ 500

/-- C10: the scorer takes no allow list input at all; every ticker string
occurring in the persisted array of some in window ANALYZED row receives a
score of at least one in the returned mapping, whatever the allow list of
the analyzer was. -/
theorem c10_no_allowlist (st : List Thread) (s : Int) (tk : String)
    (hwf : ∀ row ∈ scoreRows st s, wellFormedRow row = true)
    (hmem : ∃ t ∈ st, inWindowRow s t = true ∧
      ∃ l, t.extracted_tickers = some (TickersJson.arr l) ∧ tk ∈ l) :
    ∃ m n, calculate_weighted_scores st s = some m ∧
      lookupScore m tk = some n ∧ 1 ≤ n := by
  obtain ⟨m, hm, hlook⟩ := calculate_char st s hwf
  obtain ⟨t, ht, hw, l, htj, htkl⟩ := hmem
  have hrow : (TickersJson.arr l, t.author_name) ∈ scoreRows st s := by
    unfold scoreRows
    exact List.mem_filterMap.mpr ⟨t, List.mem_filter.mpr ⟨ht, hw⟩, by rw [htj]; rfl⟩
  have hht : rowHasTicker tk (TickersJson.arr l, t.author_name) = true := by
    simp [rowHasTicker, htkl]
  have hany : (scoreRows st s).any (rowHasTicker tk) = true :=
    List.any_eq_true.mpr ⟨_, hrow, hht⟩
  have h1 : 0 < (scoreRows st s).countP (rowHasTicker tk) :=
    List.countP_pos_iff.mpr ⟨_, hrow, hht⟩
  have h2 : 0 < (rowAuthors tk (scoreRows st s)).toFinset.card := by
    refine Finset.card_pos.mpr ⟨t.author_name, ?_⟩
    rw [List.mem_toFinset]
    exact List.mem_map.mpr
      ⟨(TickersJson.arr l, t.author_name), List.mem_filter.mpr ⟨hrow, hht⟩, rfl⟩
  exact ⟨m, _, hm, by rw [hlook tk, if_pos hany], Nat.mul_pos h1 h2⟩

theorem c10_no_allowlist_witness :
    ∃ m n, calculate_weighted_scores
        [mkRow "z" "t" "" "a" 0 (some 10) Status.ANALYZED
          (some (TickersJson.arr ["ZZZZ"]))] 0 = some m ∧
      lookupScore m "ZZZZ" = some n ∧ 1 ≤ n :=
  c10_no_allowlist _ 0 "ZZZZ" (by decide)
    ⟨mkRow "z" "t" "" "a" 0 (some 10) Status.ANALYZED
        (some (TickersJson.arr ["ZZZZ"])),
      by simp, by decide, ["ZZZZ"], rfl, by simp⟩

/-! ## Claim C9: malformed persisted ticker data -/

/-- C9 counterexample: a persisted value that is valid JSON but not an
array (modelled by the scalar constructor, for example the stored text 123
or null) is NOT skipped: the for loop of the scorer raises an uncaught
TypeError, modelled as the none result, instead of treating the record as
carrying no tickers. -/
theorem c9_counterexample :
    calculate_weighted_scores
        [mkRow "b" "t" "" "a" 0 (some 100) Status.ANALYZED
          (some TickersJson.scalar)] 0 = none := by rfl

/-- The store predicate that drops the in window rows with an undecodable
persisted value. -/
def dropInvalidPred (s : Int) (t : Thread) : Bool :=
  !(inWindowRow s t && decide (t.extracted_tickers = some TickersJson.invalid))

/-- The row predicate that keeps the selected rows whose persisted value is
decodable. -/
def notInvalidRow (row : TickersJson × String) : Bool :=
  !decide (row.1 = TickersJson.invalid)

/-- Rows whose persisted value fails decoding are skipped by the scorer
accumulation. -/
theorem procRows_skip_invalid (rows : List (TickersJson × String)) :
    ∀ σ, procRows (rows.filter notInvalidRow) σ = procRows rows σ := by
  induction rows with
  | nil => intro σ; rfl
  | cons row rest ih =>
    intro σ
    obtain ⟨tj, author⟩ := row
    cases tj with
    | arr ts => simp [List.filter_cons, notInvalidRow, procRows, ih]
    | invalid => simp [List.filter_cons, notInvalidRow, procRows, ih]
    | scalar => simp [List.filter_cons, notInvalidRow, procRows]

/-- Dropping the in window rows with an undecodable persisted value from
the store drops exactly the undecodable selected rows. -/
theorem scoreRows_filter_invalid (st : List Thread) (s : Int) :
    scoreRows (st.filter (dropInvalidPred s)) s =
      (scoreRows st s).filter notInvalidRow := by
  induction st with
  | nil => rfl
  | cons t rest ih =>
    unfold scoreRows at ih ⊢
    by_cases hw : inWindowRow s t = true
    · by_cases hinv : t.extracted_tickers = some TickersJson.invalid
      · have h1 : ¬dropInvalidPred s t = true := by
          simp [dropInvalidPred, hw, hinv]
        rw [List.filter_cons_of_neg h1, List.filter_cons_of_pos hw,
          List.filterMap_cons, hinv]
        rw [show Option.map (fun tj => (tj, t.author_name))
              (some TickersJson.invalid) = some (TickersJson.invalid, t.author_name)
            from rfl]
        have h2 : ¬notInvalidRow (TickersJson.invalid, t.author_name) = true := by
          simp [notInvalidRow]
        rw [List.filter_cons_of_neg h2]
        exact ih
      · have h1 : dropInvalidPred s t = true := by
          simp [dropInvalidPred, hw, hinv]
        rw [List.filter_cons_of_pos h1, List.filter_cons_of_pos hw,
          List.filter_cons_of_pos hw, List.filterMap_cons, List.filterMap_cons]
        cases htj : t.extracted_tickers with
        | none =>
          rw [show Option.map (fun tj => (tj, t.author_name)) none =
              (none : Option (TickersJson × String)) from rfl]
          exact ih
        | some tj =>
          have htjne : ¬tj = TickersJson.invalid := by
            intro he
            exact hinv (by rw [htj, he])
          rw [show Option.map (fun tj => (tj, t.author_name)) (some tj) =
              some (tj, t.author_name) from rfl]
          have h2 : notInvalidRow (tj, t.author_name) = true := by
            simp [notInvalidRow, htjne]
          rw [List.filter_cons_of_pos h2, ih]
    · have hwf2 : inWindowRow s t = false := Bool.eq_false_iff.mpr hw
      have h1 : dropInvalidPred s t = true := by
        simp [dropInvalidPred, hwf2]
      rw [List.filter_cons_of_pos h1, List.filter_cons_of_neg hw,
        List.filter_cons_of_neg hw]
      exact ih

/-- C9 amended: a selected record whose persisted ticker value cannot be
JSON decoded is skipped as if it carried no tickers and the run completes;
but a record whose value decodes to a non iterable scalar aborts the run
with an uncaught TypeError.  When no in window record carries such a scalar
value, the scorer completes and its result is unchanged by deleting the
undecodable in window records from the store. -/
theorem c9_skip_undecodable (st : List Thread) (s : Int)
    (hns : ∀ t ∈ st, inWindowRow s t = true →
      t.extracted_tickers ≠ some TickersJson.scalar) :
    (∃ m, calculate_weighted_scores st s = some m) ∧
    calculate_weighted_scores st s =
      calculate_weighted_scores (st.filter (dropInvalidPred s)) s := by
  constructor
  · have hrows : ∀ row ∈ scoreRows st s, row.1 ≠ TickersJson.scalar := by
      intro row hr
      unfold scoreRows at hr
      obtain ⟨t, htf, hmapped⟩ := List.mem_filterMap.mp hr
      obtain ⟨ht, hw⟩ := List.mem_filter.mp htf
      cases htj : t.extracted_tickers with
      | none => rw [htj] at hmapped; cases hmapped
      | some tj =>
        rw [htj] at hmapped
        have hrow : (tj, t.author_name) = row := by simpa using hmapped
        intro he
        refine hns t ht hw ?_
        rw [← hrow] at he
        rw [show ((tj, t.author_name)).1 = tj from rfl] at he
        rw [htj, he]
    obtain ⟨σ', hσ⟩ := procRows_isSome (scoreRows st s) initScoreState hrows
    exact ⟨_, by unfold calculate_weighted_scores; rw [hσ]⟩
  · unfold calculate_weighted_scores
    rw [scoreRows_filter_invalid, procRows_skip_invalid]

/-- Two row store for the C9 witness: one undecodable record and one valid
record inside the window. -/
def c9Store : List Thread :=
  [mkRow "i" "t" "" "a" 0 (some 10) Status.ANALYZED (some TickersJson.invalid),
   mkRow "v" "t" "" "b" 0 (some 10) Status.ANALYZED
     (some (TickersJson.arr ["AAA"]))]

theorem c9_skip_undecodable_witness :
    (∃ m, calculate_weighted_scores c9Store 0 = some m) ∧
    calculate_weighted_scores c9Store 0 =
      calculate_weighted_scores (c9Store.filter (dropInvalidPred 0)) 0 :=
  by
  have h : ∀ t ∈ c9Store, inWindowRow (0 : Int) t = true →
      t.extracted_tickers ≠ some TickersJson.scalar := by decide
  exact c9_skip_undecodable c9Store 0 h

/-! ## Lemmas about the scheduler -/

/-- A non raising guarded job applies its marker assignment exactly when it
is due and always continues with the rest of the iteration. -/
theorem schedStep_none (due : SchedState → Bool) (upd : SchedState → SchedState)
    (k : SchedState → SchedState × IterExit) (σ : SchedState) :
    schedStep due none upd k σ = k (if due σ then upd σ else σ) := by
  unfold schedStep
  split <;> rfl

/-- A raising guarded job aborts the iteration into its handler when due,
with the marker assignment skipped. -/
theorem schedStep_some (due : SchedState → Bool) (e : JobErr)
    (upd : SchedState → SchedState)
    (k : SchedState → SchedState × IterExit) (σ : SchedState) :
    schedStep due (some e) upd k σ =
      if due σ then (σ, jobHandler e) else k σ := by
  unfold schedStep
  split <;> rfl

/-! The next seven lemmas merge the branches of a guarded marker assignment
into a single record whose field holds the conditional value; they let the
iteration normalise to one record without case explosion. -/

theorem iteUpdL_harvest (c : Prop) [Decidable c] (f1 f2 f3 f4 f5 f6 f7 v : Int) :
    (if c then SchedState.mk v f2 f3 f4 f5 f6 f7 else SchedState.mk f1 f2 f3 f4 f5 f6 f7) =
      SchedState.mk (if c then v else f1) f2 f3 f4 f5 f6 f7 := by
  split <;> rename_i h <;> simp [h]

theorem iteUpdL_check (c : Prop) [Decidable c] (f1 f2 f3 f4 f5 f6 f7 v : Int) :
    (if c then SchedState.mk f1 v f3 f4 f5 f6 f7 else SchedState.mk f1 f2 f3 f4 f5 f6 f7) =
      SchedState.mk f1 (if c then v else f2) f3 f4 f5 f6 f7 := by
  split <;> rename_i h <;> simp [h]

theorem iteUpdL_analysis (c : Prop) [Decidable c] (f1 f2 f3 f4 f5 f6 f7 v : Int) :
    (if c then SchedState.mk f1 f2 v f4 f5 f6 f7 else SchedState.mk f1 f2 f3 f4 f5 f6 f7) =
      SchedState.mk f1 f2 (if c then v else f3) f4 f5 f6 f7 := by
  split <;> rename_i h <;> simp [h]

theorem iteUpdL_hourly (c : Prop) [Decidable c] (f1 f2 f3 f4 f5 f6 f7 v : Int) :
    (if c then SchedState.mk f1 f2 f3 v f5 f6 f7 else SchedState.mk f1 f2 f3 f4 f5 f6 f7) =
      SchedState.mk f1 f2 f3 (if c then v else f4) f5 f6 f7 := by
  split <;> rename_i h <;> simp [h]

theorem iteUpdL_daily1 (c : Prop) [Decidable c] (f1 f2 f3 f4 f5 f6 f7 v : Int) :
    (if c then SchedState.mk f1 f2 f3 f4 v f6 f7 else SchedState.mk f1 f2 f3 f4 f5 f6 f7) =
      SchedState.mk f1 f2 f3 f4 (if c then v else f5) f6 f7 := by
  split <;> rename_i h <;> simp [h]

theorem iteUpdL_daily2 (c : Prop) [Decidable c] (f1 f2 f3 f4 f5 f6 f7 v : Int) :
    (if c then SchedState.mk f1 f2 f3 f4 f5 v f7 else SchedState.mk f1 f2 f3 f4 f5 f6 f7) =
      SchedState.mk f1 f2 f3 f4 f5 (if c then v else f6) f7 := by
  split <;> rename_i h <;> simp [h]

theorem iteUpdL_weekly (c : Prop) [Decidable c] (f1 f2 f3 f4 f5 f6 f7 v : Int) :
    (if c then SchedState.mk f1 f2 f3 f4 f5 f6 v else SchedState.mk f1 f2 f3 f4 f5 f6 f7) =
      SchedState.mk f1 f2 f3 f4 f5 f6 (if c then v else f7) := by
  split <;> rename_i h <;> simp [h]

/-- Full characterisation of an iteration in which every call returns
normally: each due job receives the iteration time as its marker (the
second daily report is due only when additionally more than half of the
first daily interval has passed since the possibly just updated first daily
marker), every other marker is unchanged, and the iteration ends in the
sleep branch with the sleep time computed on the updated markers. -/
theorem mainIteration_allOk_spec (σ0 : SchedState) (now : Int) :
    (mainIteration allOk now σ0).1.last_harvest =
        (if HARVEST_INTERVAL ≤ now - σ0.last_harvest then now else σ0.last_harvest) ∧
    (mainIteration allOk now σ0).1.last_check =
        (if CHECK_INTERVAL ≤ now - σ0.last_check then now else σ0.last_check) ∧
    (mainIteration allOk now σ0).1.last_analysis =
        (if ANALYSIS_INTERVAL ≤ now - σ0.last_analysis then now else σ0.last_analysis) ∧
    (mainIteration allOk now σ0).1.last_report_hourly =
        (if REPORT_HOURLY_INTERVAL ≤ now - σ0.last_report_hourly then now
         else σ0.last_report_hourly) ∧
    (mainIteration allOk now σ0).1.last_report_daily_1 =
        (if REPORT_DAILY_INTERVAL_1 ≤ now - σ0.last_report_daily_1 then now
         else σ0.last_report_daily_1) ∧
    (mainIteration allOk now σ0).1.last_report_daily_2 =
        (if REPORT_DAILY_INTERVAL_2 ≤ now - σ0.last_report_daily_2 ∧
            REPORT_DAILY_INTERVAL_1 / 2 < now -
              (if REPORT_DAILY_INTERVAL_1 ≤ now - σ0.last_report_daily_1 then now
               else σ0.last_report_daily_1)
         then now else σ0.last_report_daily_2) ∧
    (mainIteration allOk now σ0).1.last_report_weekly =
        (if REPORT_WEEKLY_INTERVAL ≤ now - σ0.last_report_weekly then now
         else σ0.last_report_weekly) ∧
    (mainIteration allOk now σ0).2 =
        IterExit.slept (sleepCalc now (mainIteration allOk now σ0).1) := by
  obtain ⟨h0, c0, a0, rh0, d10, d20, w0⟩ := σ0
  simp only [mainIteration, allOk, schedStep_none, decide_eq_true_eq,
    iteUpdL_harvest, iteUpdL_check, iteUpdL_analysis, iteUpdL_hourly,
    iteUpdL_daily1, iteUpdL_daily2, iteUpdL_weekly]
  and_intros <;> trivial

/-- Characterisation of an iteration in which the due analysis call raises:
the harvest and check markers are still assigned when those jobs are due,
the analysis marker and every later marker keep their old values (the rest
of the iteration is skipped), and the iteration ends in the handler of the
exception class. -/
theorem mainIteration_analyzeErr_spec (σ0 : SchedState) (now : Int) (e : JobErr)
    (hdue : ANALYSIS_INTERVAL ≤ now - σ0.last_analysis) :
    (mainIteration ⟨none, none, some e, none, none, none, none⟩ now σ0).1.last_harvest =
        (if HARVEST_INTERVAL ≤ now - σ0.last_harvest then now else σ0.last_harvest) ∧
    (mainIteration ⟨none, none, some e, none, none, none, none⟩ now σ0).1.last_check =
        (if CHECK_INTERVAL ≤ now - σ0.last_check then now else σ0.last_check) ∧
    (mainIteration ⟨none, none, some e, none, none, none, none⟩ now σ0).1.last_analysis =
        σ0.last_analysis ∧
    (mainIteration ⟨none, none, some e, none, none, none, none⟩ now σ0).1.last_report_hourly =
        σ0.last_report_hourly ∧
    (mainIteration ⟨none, none, some e, none, none, none, none⟩ now σ0).1.last_report_daily_1 =
        σ0.last_report_daily_1 ∧
    (mainIteration ⟨none, none, some e, none, none, none, none⟩ now σ0).1.last_report_daily_2 =
        σ0.last_report_daily_2 ∧
    (mainIteration ⟨none, none, some e, none, none, none, none⟩ now σ0).1.last_report_weekly =
        σ0.last_report_weekly ∧
    (mainIteration ⟨none, none, some e, none, none, none, none⟩ now σ0).2 =
        jobHandler e := by
  obtain ⟨h0, c0, a0, rh0, d10, d20, w0⟩ := σ0
  simp only at hdue
  simp only [mainIteration, schedStep_none, schedStep_some, decide_eq_true_eq,
    iteUpdL_harvest, iteUpdL_check]
  rw [if_pos hdue]
  and_intros <;> trivial

/-- C6 counterexample: with every marker at zero and current time 1000 the
analysis job is due (its elapsed time 1000 is at least the interval 60) and
its call is made, but because the call raises a database error the marker
assignment placed after the call is skipped: the last run marker keeps its
old value 0 instead of the iteration time 1000, so the claim that the
last run timestamp is recorded regardless of success or failure fails. -/
theorem c6_counterexample :
    ANALYSIS_INTERVAL ≤ (1000 : Int) - 0 ∧
    (mainIteration ⟨none, none, some JobErr.db, none, none, none, none⟩ 1000
        ⟨0, 0, 0, 0, 0, 0, 0⟩).1.last_analysis = 0 ∧
    ¬((0 : Int) = 1000) :=
  ⟨by decide, by rfl, by decide⟩

/-- C6 amended: in every iteration, a due job whose call returns (normally,
or with an error it caught itself, as harvest and check do) gets the
iteration time as its new last run marker, and markers of jobs that are not
due are unchanged; but a due job whose call raises into the loop (possible
for the analysis and report calls) keeps its old marker, and the rest of
the iteration, including the marker assignments of all later jobs, is
skipped in favour of the matching handler. -/
theorem c6_last_run_markers (σ0 : SchedState) (now : Int) :
    ((mainIteration allOk now σ0).1.last_harvest =
        (if HARVEST_INTERVAL ≤ now - σ0.last_harvest then now else σ0.last_harvest) ∧
     (mainIteration allOk now σ0).1.last_check =
        (if CHECK_INTERVAL ≤ now - σ0.last_check then now else σ0.last_check) ∧
     (mainIteration allOk now σ0).1.last_analysis =
        (if ANALYSIS_INTERVAL ≤ now - σ0.last_analysis then now else σ0.last_analysis) ∧
     (mainIteration allOk now σ0).1.last_report_hourly =
        (if REPORT_HOURLY_INTERVAL ≤ now - σ0.last_report_hourly then now
         else σ0.last_report_hourly) ∧
     (mainIteration allOk now σ0).1.last_report_daily_1 =
        (if REPORT_DAILY_INTERVAL_1 ≤ now - σ0.last_report_daily_1 then now
         else σ0.last_report_daily_1) ∧
     (mainIteration allOk now σ0).1.last_report_daily_2 =
        (if REPORT_DAILY_INTERVAL_2 ≤ now - σ0.last_report_daily_2 ∧
            REPORT_DAILY_INTERVAL_1 / 2 < now -
              (if REPORT_DAILY_INTERVAL_1 ≤ now - σ0.last_report_daily_1 then now
               else σ0.last_report_daily_1)
         then now else σ0.last_report_daily_2) ∧
     (mainIteration allOk now σ0).1.last_report_weekly =
        (if REPORT_WEEKLY_INTERVAL ≤ now - σ0.last_report_weekly then now
         else σ0.last_report_weekly)) ∧
    (∀ e : JobErr, ANALYSIS_INTERVAL ≤ now - σ0.last_analysis →
      (mainIteration ⟨none, none, some e, none, none, none, none⟩ now σ0).1.last_harvest =
          (if HARVEST_INTERVAL ≤ now - σ0.last_harvest then now else σ0.last_harvest) ∧
      (mainIteration ⟨none, none, some e, none, none, none, none⟩ now σ0).1.last_check =
          (if CHECK_INTERVAL ≤ now - σ0.last_check then now else σ0.last_check) ∧
      (mainIteration ⟨none, none, some e, none, none, none, none⟩ now σ0).1.last_analysis =
          σ0.last_analysis ∧
      (mainIteration ⟨none, none, some e, none, none, none, none⟩ now σ0).1.last_report_hourly =
          σ0.last_report_hourly ∧
      (mainIteration ⟨none, none, some e, none, none, none, none⟩ now σ0).1.last_report_daily_1 =
          σ0.last_report_daily_1 ∧
      (mainIteration ⟨none, none, some e, none, none, none, none⟩ now σ0).1.last_report_daily_2 =
          σ0.last_report_daily_2 ∧
      (mainIteration ⟨none, none, some e, none, none, none, none⟩ now σ0).1.last_report_weekly =
          σ0.last_report_weekly ∧
      (mainIteration ⟨none, none, some e, none, none, none, none⟩ now σ0).2 =
          jobHandler e) := by
  have hall := mainIteration_allOk_spec σ0 now
  refine ⟨?_, fun e hdue => mainIteration_analyzeErr_spec σ0 now e hdue⟩
  exact ⟨hall.1, hall.2.1, hall.2.2.1, hall.2.2.2.1, hall.2.2.2.2.1,
    hall.2.2.2.2.2.1, hall.2.2.2.2.2.2.1⟩

/-- C7 counterexample: in the state in which every job except the second
daily report has just run at time 100000 and the second daily report has
waited exactly its interval (marker 56800), the iteration computes a sleep
of 1 second, while the minimum over ALL jobs, including the omitted term of
the second daily report whose remaining time is 0, is 0: the computed sleep
does not equal the minimum over all jobs. -/
theorem c7_counterexample :
    mainIteration allOk 100000
        ⟨100000, 100000, 100000, 100000, 100000, 56800, 100000⟩ =
      (⟨100000, 100000, 100000, 100000, 100000, 56800, 100000⟩,
        IterExit.slept 1) ∧
    min (HARVEST_INTERVAL - ((100000 : Int) - 100000))
      (min (CHECK_INTERVAL - ((100000 : Int) - 100000))
        (min (ANALYSIS_INTERVAL - ((100000 : Int) - 100000))
          (min (REPORT_HOURLY_INTERVAL - ((100000 : Int) - 100000))
            (min (REPORT_DAILY_INTERVAL_1 - ((100000 : Int) - 100000))
              (min (REPORT_DAILY_INTERVAL_2 - ((100000 : Int) - 56800))
                (min (REPORT_WEEKLY_INTERVAL - ((100000 : Int) - 100000))
                  (10 : Int))))))) = 0 ∧
    ¬((1 : Int) = 0) :=
  ⟨by rfl, by decide, by decide⟩

/-- C7 amended: the computed sleep is the minimum, over harvest, check,
analysis, the hourly report, the FIRST daily report and the weekly report
only (the code omits the second daily report from the minimum), of the
interval minus the elapsed time, capped at the fixed ceiling 10, evaluated
on the updated markers; the sleep call is skipped unless the value is
positive, so the waited time is the non negative clamp; and on the spec
numbers (intervals 10, 60, 1800 with elapsed 15, 5, 1900) exactly the first
and third jobs are due and the clamped capped minimum is 0. -/
theorem c7_sleep_formula (σ0 : SchedState) (now : Int) :
    ((mainIteration allOk now σ0).2 =
        IterExit.slept (sleepCalc now (mainIteration allOk now σ0).1)) ∧
    (sleepCalc now σ0 ≤ HARVEST_INTERVAL - (now - σ0.last_harvest) ∧
     sleepCalc now σ0 ≤ CHECK_INTERVAL - (now - σ0.last_check) ∧
     sleepCalc now σ0 ≤ ANALYSIS_INTERVAL - (now - σ0.last_analysis) ∧
     sleepCalc now σ0 ≤ REPORT_HOURLY_INTERVAL - (now - σ0.last_report_hourly) ∧
     sleepCalc now σ0 ≤ REPORT_DAILY_INTERVAL_1 - (now - σ0.last_report_daily_1) ∧
     sleepCalc now σ0 ≤ REPORT_WEEKLY_INTERVAL - (now - σ0.last_report_weekly) ∧
     sleepCalc now σ0 ≤ 10 ∧
     (sleepCalc now σ0 = HARVEST_INTERVAL - (now - σ0.last_harvest) ∨
      sleepCalc now σ0 = CHECK_INTERVAL - (now - σ0.last_check) ∨
      sleepCalc now σ0 = ANALYSIS_INTERVAL - (now - σ0.last_analysis) ∨
      sleepCalc now σ0 = REPORT_HOURLY_INTERVAL - (now - σ0.last_report_hourly) ∨
      sleepCalc now σ0 = REPORT_DAILY_INTERVAL_1 - (now - σ0.last_report_daily_1) ∨
      sleepCalc now σ0 = REPORT_WEEKLY_INTERVAL - (now - σ0.last_report_weekly) ∨
      sleepCalc now σ0 = 10)) ∧
    (∀ sl : Int, actualSleep sl = max sl 0) ∧
    ((10 : Int) ≤ 15 ∧ ¬((60 : Int) ≤ 5) ∧ (1800 : Int) ≤ 1900 ∧
      actualSleep (min ((10 : Int) - 15)
        (min ((60 : Int) - 5) (min ((1800 : Int) - 1900) 10))) = 0) := by
  refine ⟨(mainIteration_allOk_spec σ0 now).2.2.2.2.2.2.2, ?_, ?_, ?_⟩
  · unfold sleepCalc HARVEST_INTERVAL CHECK_INTERVAL ANALYSIS_INTERVAL
      REPORT_HOURLY_INTERVAL REPORT_DAILY_INTERVAL_1 REPORT_WEEKLY_INTERVAL
    omega
  · intro sl
    unfold actualSleep
    split <;> omega
  · exact ⟨by decide, by decide, by decide, by decide⟩
